import Mathlib

/-!
# Verification of the n×n sliding-puzzle A* solver

This file embeds the solver (`solveSlider` in `hw1.py`, with its inner
functions `heuristic` and `get_neighbors`) as executable Lean definitions and
proves the specified properties about them.

Boards are flat row-major lists of tile values, `0` being the blank, exactly
as the Python tuples.  The Python `while open_set:` loop is embedded as a
step function `stepFn` on a search state (frontier, tie-break counter,
best-cost table) iterated with explicit fuel; termination is proved
separately, so a sufficient fuel always exists.  Python's in-place stable
`list.sort(key=lambda x: x[0])` is embedded as a stable insertion sort by
priority (stable sorts agree on their output, so this is the same list).
The best-cost dict is embedded as an association list whose lookup returns
the most recently written binding for a key, i.e. dict semantics.
-/

/-- A board: flat row-major list of `size*size` tile values, `0` = blank. -/
abbrev Board := List Nat

/-- `goal = tuple(range(size * size))`. -/
def goalBoard (size : Nat) : Board := List.range (size * size)

/-- Manhattan contribution of the tile value `tile` sitting at flat index
`idx`: `abs(current_row - goal_row) + abs(current_col - goal_col)`, and the
blank contributes nothing. -/
def tileDist (size idx tile : Nat) : Nat :=
  if tile ≠ 0 then
    (((idx / size : Nat) : Int) - ((tile / size : Nat) : Int)).natAbs +
      (((idx % size : Nat) : Int) - ((tile % size : Nat) : Int)).natAbs
  else 0

/-- The `for idx, tile in enumerate(state)` accumulation of `heuristic`,
carrying the running index. -/
def heuristicAux (size : Nat) : Nat → List Nat → Nat
  | _, [] => 0
  | idx, tile :: rest => tileDist size idx tile + heuristicAux size (idx + 1) rest

/-- Total Manhattan distance of all non-blank tiles (`heuristic` in the
source). -/
def heuristic (size : Nat) (state : Board) : Nat := heuristicAux size 0 state

/-- The simultaneous swap
`state_list[i], state_list[j] = state_list[j], state_list[i]`:
both right-hand sides are read from the original list. -/
def swapPositions (state : Board) (i j : Nat) : Board :=
  (state.set i (state.getD j 0)).set j (state.getD i 0)

/-- `get_neighbors` from the source: locate the blank, list the in-bounds
positions above, below, left and right of it in that order, and for each
emit the board with blank and that tile exchanged, paired with the moved
tile's value. -/
def get_neighbors (size : Nat) (state : Board) : List (Board × Nat) :=
  let empty_index := state.indexOf 0
  let row := empty_index / size
  let col := empty_index % size
  let adjacent_positions : List (Nat × Nat) :=
    (if 0 < row then [(row - 1, col)] else []) ++
    (if row < size - 1 then [(row + 1, col)] else []) ++
    (if 0 < col then [(row, col - 1)] else []) ++
    (if col < size - 1 then [(row, col + 1)] else [])
  adjacent_positions.map fun pos =>
    let neighbor_index := pos.1 * size + pos.2
    (swapPositions state empty_index neighbor_index, state.getD neighbor_index 0)

/-- A frontier entry `(priority, counter, state, moves)`. -/
structure Entry where
  priority : Nat
  counter : Nat
  state : Board
  path : List Nat
deriving DecidableEq

/-- The mutable state of the search loop: the open set, the tie-break
counter, and the best-cost dict. -/
structure SearchState where
  open_set : List Entry
  counter : Nat
  best_cost : List (Board × Nat)
deriving DecidableEq

/-- Dict lookup: the most recent binding of a key in the association list
(new bindings are consed in front). -/
def findCost : List (Board × Nat) → Board → Option Nat
  | [], _ => none
  | (k, v) :: rest, b => if k = b then some v else findCost rest b

/-- Insertion step of a stable sort by `priority`: the new entry goes after
every earlier entry with strictly smaller priority and before the first
entry with greater-or-equal priority. -/
def insertByPriority (e : Entry) : List Entry → List Entry
  | [] => [e]
  | f :: rest =>
    if f.priority < e.priority then f :: insertByPriority e rest
    else e :: f :: rest

/-- Stable sort of the open set by priority — the embedding of
`open_set.sort(key=lambda x: x[0])` (Python's sort is stable, and a stable
sort's output is unique, so the sorted list is the same). -/
def sortByPriority : List Entry → List Entry
  | [] => []
  | e :: rest => insertByPriority e (sortByPriority rest)

/-- One turn of the `for neighbor, moved_tile in get_neighbors(...)` body:
if the neighbor is new or the tentative cost improves its recorded cost,
record the cost and append a fresh frontier entry. `current_cost` and
`path` belong to the entry popped in this iteration and stay fixed. -/
def relax (size current_cost : Nat) (path : List Nat)
    (acc : SearchState) (nb : Board × Nat) : SearchState :=
  let new_cost := current_cost + 1
  let doPush : SearchState :=
    ⟨acc.open_set ++
        [⟨new_cost + heuristic size nb.1, acc.counter + 1, nb.1, path ++ [nb.2]⟩],
      acc.counter + 1,
      (nb.1, new_cost) :: acc.best_cost⟩
  match findCost acc.best_cost nb.1 with
  | some old => if new_cost < old then doPush else acc
  | none => doPush

/-- Outcome of one iteration of the `while open_set:` loop. -/
inductive StepOut where
  | solved (path : List Nat)
  | exhausted
  | next (σ : SearchState)
deriving DecidableEq

/-- One iteration of the main loop: sort the open set, pop the front entry,
return its path if it is the goal, and otherwise process every neighbor.
`current_cost` is re-read from the best-cost dict at pop time
(`best_cost[current_state]`; the key is always present when the solver
runs, so the `getD` default is never used). -/
def stepFn (size : Nat) (σ : SearchState) : StepOut :=
  match sortByPriority σ.open_set with
  | [] => .exhausted
  | e :: rest =>
    if e.state = goalBoard size then .solved e.path
    else .next ((get_neighbors size e.state).foldl
        (relax size ((findCost σ.best_cost e.state).getD 0) e.path)
        ⟨rest, σ.counter, σ.best_cost⟩)

/-- The loop, with explicit fuel; `none` means the fuel ran out (the Python
loop has no such outcome — a sufficient fuel is proved to exist). An
exhausted frontier returns the empty move list. -/
def solveLoop (size : Nat) : Nat → SearchState → Option (List Nat)
  | 0, _ => none
  | fuel + 1, σ =>
    match stepFn size σ with
    | .solved path => some path
    | .exhausted => some []
    | .next σ' => solveLoop size fuel σ'

/-- The loop state after seeding: the start board at priority
`0 + heuristic(start)` with counter `0` and empty path, and
`best_cost = {start: 0}`. -/
def initState (size : Nat) (grid : List Nat) : SearchState :=
  ⟨[⟨0 + heuristic size grid, 0, grid, []⟩], 0, [(grid, 0)]⟩

/-- Iterating the loop body `n` times from a state (`some` while no exit was
taken), used to speak about "every iteration of the main loop". -/
def iterateLoop (size : Nat) : Nat → SearchState → Option SearchState
  | 0, σ => some σ
  | n + 1, σ =>
    match stepFn size σ with
    | .next σ' => iterateLoop size n σ'
    | _ => none

/-- `solveSlider`: return `[]` at once if the board is the goal, otherwise
run the A* loop (with fuel). -/
def solveSliderFuel (size : Nat) (grid : List Nat) (fuel : Nat) :
    Option (List Nat) :=
  if grid = goalBoard size then some []
  else solveLoop size fuel (initState size grid)

/-- A well-formed input: `size ≥ 1` and the board is a permutation of
`0 .. size*size-1`. -/
def WellFormed (size : Nat) (grid : List Nat) : Prop :=
  1 ≤ size ∧ grid.Perm (goalBoard size)

instance (size : Nat) (grid : List Nat) : Decidable (WellFormed size grid) := by
  unfold WellFormed
  infer_instance

/-- Applying one move to a board: slide the named tile into the blank, i.e.
take the unique neighbor whose moved tile is `m` (spec §3: a move is the
value of the tile that slides into the blank's position). -/
def applyMove (size : Nat) (b : Board) (m : Nat) : Option Board :=
  ((get_neighbors size b).find? fun p => p.2 = m).map Prod.fst

/-- Applying a move list in order. -/
def applyMoves (size : Nat) : Board → List Nat → Option Board
  | b, [] => some b
  | b, m :: ms =>
    match applyMove size b m with
    | some b' => applyMoves size b' ms
    | none => none

/-- A board is solvable when some move list takes it to the goal. -/
def Solvable (size : Nat) (b : Board) : Prop :=
  ∃ p : List Nat, applyMoves size b p = some (goalBoard size)

/-- The blank's row and column are on the boundary in both axes (spec §4.1:
"corner"). -/
def BlankCorner (size : Nat) (b : Board) : Prop :=
  (b.indexOf 0 / size = 0 ∨ b.indexOf 0 / size = size - 1) ∧
    (b.indexOf 0 % size = 0 ∨ b.indexOf 0 % size = size - 1)

/-- The blank's row and column are both strictly inside the grid (spec §4.1:
"interior"). -/
def BlankInterior (size : Nat) (b : Board) : Prop :=
  0 < b.indexOf 0 / size ∧ b.indexOf 0 / size < size - 1 ∧
    0 < b.indexOf 0 % size ∧ b.indexOf 0 % size < size - 1

/-- The blank is on the boundary but not in a corner (spec §4.1: "edge"). -/
def BlankEdge (size : Nat) (b : Board) : Prop :=
  ¬BlankCorner size b ∧ ¬BlankInterior size b

/-- Modelled from the spec (§4.1): "the candidate neighbor cells are
up/down/left/right, filtered to stay within `[0, size)` on both axes; for
each in-bounds neighbor, build a new board by exchanging blank and neighbor
content; emit (new board, tile value that was at the neighbor cell)" —
written with signed coordinates and a bounds filter, to compare with the
source's `get_neighbors`. -/
def scanOrderNeighbors (size : Nat) (b : Board) : List (Board × Nat) :=
  let i := b.indexOf 0
  let r : Int := (i : Int) / (size : Int)
  let c : Int := (i : Int) % (size : Int)
  (([(r - 1, c), (r + 1, c), (r, c - 1), (r, c + 1)] : List (Int × Int)).filter
      fun p => decide (0 ≤ p.1) && decide (p.1 < (size : Int)) &&
        decide (0 ≤ p.2) && decide (p.2 < (size : Int))).map
    fun p =>
      let j := (p.1 * (size : Int) + p.2).toNat
      (swapPositions b i j, b.getD j 0)

/-- Flat indices adjacent to `i` in the blank's scan order: the conditions
are the source's bounds checks and the values are the flat indices of the
cells above, below, left and right of `i`. -/
def AdjIdx (size i j : Nat) : Prop :=
  (0 < i / size ∧ j = i - size) ∨
  (i / size < size - 1 ∧ j = i + size) ∨
  (0 < i % size ∧ j = i - 1) ∨
  (i % size < size - 1 ∧ j = i + 1)

/-- Tie-break order: whenever two entries have equal priority, the one with
the smaller counter comes first.  Python's stable sort keeps equal-priority
entries in list order, and list order is insertion (counter) order. -/
def TieBefore (a b : Entry) : Prop := a.priority = b.priority → a.counter < b.counter


/-- Every frontier entry's counter is at most the global counter, and
entries with equal priority appear in counter order. -/
def CounterInv (σ : SearchState) : Prop :=
  (∀ e ∈ σ.open_set, e.counter ≤ σ.counter) ∧ σ.open_set.Pairwise TieBefore


/-- The pushed entry and state of a successful relaxation. -/
def pushState (size current_cost : Nat) (path : List Nat)
    (acc : SearchState) (nb : Board × Nat) : SearchState :=
  ⟨acc.open_set ++
      [⟨current_cost + 1 + heuristic size nb.1, acc.counter + 1, nb.1,
        path ++ [nb.2]⟩],
    acc.counter + 1,
    (nb.1, current_cost + 1) :: acc.best_cost⟩



/-- The main search invariant, for a fixed instance `(size, grid)`.

`entries`: every frontier entry's path really leads from `grid` to its
state, its priority is its g-cost (path length) plus the heuristic, and the
best-cost dict holds a value for its state that is at most its path length.

`keys`: every recorded board is a permutation of `grid` reached by some
real move list whose length is the recorded cost.

`startKey`: the start board's recorded cost stays `0`.

`closure`: every recorded board either still has a frontier entry achieving
its recorded cost, or (never for the goal) has been expanded at that cost:
every neighbor is recorded with cost at most one more. -/
structure SearchInv (size : Nat) (grid : Board) (σ : SearchState) : Prop where
  entries : ∀ e ∈ σ.open_set,
    applyMoves size grid e.path = some e.state ∧
    e.priority = e.path.length + heuristic size e.state ∧
    ∃ v, findCost σ.best_cost e.state = some v ∧ v ≤ e.path.length
  keys : ∀ s v, findCost σ.best_cost s = some v →
    s.Perm grid ∧ ∃ p : List Nat, p.length = v ∧ applyMoves size grid p = some s
  startKey : findCost σ.best_cost grid = some 0
  closure : ∀ s v, findCost σ.best_cost s = some v →
    (∃ e ∈ σ.open_set, e.state = s ∧ e.path.length = v) ∨
    (¬s = goalBoard size ∧ ∀ pr ∈ get_neighbors size s,
      ∃ w, findCost σ.best_cost pr.1 = some w ∧ w ≤ v + 1)

/-- The invariant of the neighbor-processing loop while expanding a popped
entry of state `estate` and recorded cost `v`: like `Inv` except that
`estate`'s own closure is only established for the `done` prefix of its
neighbor list. -/
structure FoldInv (size : Nat) (grid : Board) (estate : Board) (v : Nat)
    (done : List (Board × Nat)) (acc : SearchState) : Prop where
  entries : ∀ e ∈ acc.open_set,
    applyMoves size grid e.path = some e.state ∧
    e.priority = e.path.length + heuristic size e.state ∧
    ∃ w, findCost acc.best_cost e.state = some w ∧ w ≤ e.path.length
  keys : ∀ s w, findCost acc.best_cost s = some w →
    s.Perm grid ∧ ∃ p : List Nat, p.length = w ∧ applyMoves size grid p = some s
  startKey : findCost acc.best_cost grid = some 0
  closureExc : ∀ s w, findCost acc.best_cost s = some w →
    (∃ f ∈ acc.open_set, f.state = s ∧ f.path.length = w) ∨
    (¬s = goalBoard size ∧ ∀ pr ∈ get_neighbors size s,
      ∃ u, findCost acc.best_cost pr.1 = some u ∧ u ≤ w + 1) ∨
    (s = estate ∧ w = v)
  partialClosure : ∀ pr ∈ done,
    ∃ u, findCost acc.best_cost pr.1 = some u ∧ u ≤ v + 1
  estateVal : findCost acc.best_cost estate = some v


/-- A reachable search state of the size-3 search from
`[5, 4, 0, 3, 2, 1, 6, 7, 8]` (28 loop iterations in): the sorted frontier
head carries a path of length 7 to a board whose recorded cost has dropped
to 5, i.e. a stale entry is about to be popped. -/
def staleSigma : SearchState :=
{ open_set := [{ priority := 12,
                 counter := 24,
                 state := [5, 0, 2, 3, 1, 4, 6, 7, 8],
                 path := [1, 2, 4, 1, 2, 4, 1] },
               { priority := 12, counter := 25, state := [5, 1, 2, 3, 7, 4, 6, 0, 8], path := [1, 2, 4, 1, 2, 4, 7] },
               { priority := 12, counter := 26, state := [5, 1, 2, 0, 3, 4, 6, 7, 8], path := [1, 2, 4, 1, 2, 4, 3] },
               { priority := 12, counter := 27, state := [5, 2, 4, 3, 7, 1, 6, 0, 8], path := [4, 2, 7] },
               { priority := 12, counter := 28, state := [5, 2, 4, 0, 3, 1, 6, 7, 8], path := [4, 2, 3] },
               { priority := 12, counter := 30, state := [3, 5, 4, 0, 2, 1, 6, 7, 8], path := [4, 5, 3] },
               { priority := 12, counter := 31, state := [4, 0, 1, 5, 3, 2, 6, 7, 8], path := [1, 2, 3, 5, 4] },
               { priority := 12, counter := 33, state := [5, 2, 4, 3, 1, 8, 6, 7, 0], path := [4, 2, 1, 8] },
               { priority := 12, counter := 36, state := [3, 5, 2, 0, 1, 4, 6, 7, 8], path := [4, 2, 1, 4, 2, 5, 3] },
               { priority := 12, counter := 43, state := [3, 0, 1, 4, 5, 2, 6, 7, 8], path := [1, 2, 4, 5, 3, 4, 5] },
               { priority := 14, counter := 37, state := [5, 4, 1, 3, 0, 8, 6, 2, 7], path := [1, 8, 7, 2] },
               { priority := 14, counter := 38, state := [5, 4, 1, 3, 2, 8, 0, 6, 7], path := [1, 8, 7, 6] },
               { priority := 14, counter := 39, state := [5, 4, 1, 0, 7, 2, 3, 6, 8], path := [1, 2, 7, 6, 3] },
               { priority := 14, counter := 40, state := [5, 4, 1, 3, 7, 0, 6, 8, 2], path := [1, 2, 7, 8, 2] },
               { priority := 14, counter := 41, state := [5, 4, 1, 6, 3, 2, 7, 0, 8], path := [1, 2, 3, 6, 7] },
               { priority := 14, counter := 42, state := [3, 5, 1, 6, 4, 2, 7, 0, 8], path := [1, 2, 4, 5, 3, 6, 7] },
               { priority := 14, counter := 44, state := [3, 5, 1, 4, 7, 2, 6, 0, 8], path := [1, 2, 4, 5, 3, 4, 7] },
               { priority := 14, counter := 45, state := [3, 5, 1, 4, 2, 0, 6, 7, 8], path := [1, 2, 4, 5, 3, 4, 2] },
               { priority := 14,
                 counter := 46,
                 state := [5, 1, 2, 3, 0, 8, 6, 4, 7],
                 path := [1, 2, 4, 1, 2, 8, 7, 4] },
               { priority := 14,
                 counter := 47,
                 state := [5, 1, 2, 3, 4, 8, 0, 6, 7],
                 path := [1, 2, 4, 1, 2, 8, 7, 6] }],
  counter := 47,
  best_cost := [([5, 1, 2, 3, 4, 8, 0, 6, 7], 8),
                ([5, 1, 2, 3, 0, 8, 6, 4, 7], 8),
                ([3, 5, 1, 4, 2, 0, 6, 7, 8], 7),
                ([3, 5, 1, 4, 7, 2, 6, 0, 8], 7),
                ([3, 0, 1, 4, 5, 2, 6, 7, 8], 7),
                ([3, 5, 1, 6, 4, 2, 7, 0, 8], 7),
                ([5, 4, 1, 6, 3, 2, 7, 0, 8], 5),
                ([5, 4, 1, 3, 7, 0, 6, 8, 2], 5),
                ([5, 4, 1, 0, 7, 2, 3, 6, 8], 5),
                ([5, 4, 1, 3, 2, 8, 0, 6, 7], 4),
                ([5, 4, 1, 3, 0, 8, 6, 2, 7], 4),
                ([3, 5, 2, 0, 1, 4, 6, 7, 8], 7),
                ([0, 5, 2, 3, 1, 4, 6, 7, 8], 6),
                ([5, 0, 2, 3, 1, 4, 6, 7, 8], 5),
                ([5, 2, 4, 3, 1, 8, 6, 7, 0], 4),
                ([5, 2, 0, 3, 1, 4, 6, 7, 8], 4),
                ([4, 0, 1, 5, 3, 2, 6, 7, 8], 5),
                ([3, 5, 4, 0, 2, 1, 6, 7, 8], 3),
                ([5, 2, 4, 3, 1, 0, 6, 7, 8], 3),
                ([5, 2, 4, 0, 3, 1, 6, 7, 8], 3),
                ([5, 2, 4, 3, 7, 1, 6, 0, 8], 3),
                ([5, 1, 2, 0, 3, 4, 6, 7, 8], 7),
                ([5, 1, 2, 3, 7, 4, 6, 0, 8], 7),
                ([5, 0, 2, 3, 1, 4, 6, 7, 8], 7),
                ([5, 1, 2, 3, 4, 8, 6, 0, 7], 7),
                ([3, 5, 1, 4, 0, 2, 6, 7, 8], 6),
                ([3, 5, 1, 6, 4, 2, 0, 7, 8], 6),
                ([5, 4, 1, 6, 3, 2, 0, 7, 8], 4),
                ([0, 4, 1, 5, 3, 2, 6, 7, 8], 4),
                ([5, 4, 1, 3, 7, 2, 6, 8, 0], 4),
                ([5, 4, 1, 3, 7, 2, 0, 6, 8], 4),
                ([5, 4, 1, 3, 2, 8, 6, 0, 7], 3),
                ([0, 5, 4, 3, 2, 1, 6, 7, 8], 2),
                ([5, 2, 4, 3, 0, 1, 6, 7, 8], 2),
                ([5, 1, 2, 3, 0, 4, 6, 7, 8], 6),
                ([5, 1, 2, 3, 4, 8, 6, 7, 0], 6),
                ([5, 1, 2, 3, 4, 0, 6, 7, 8], 5),
                ([3, 5, 1, 0, 4, 2, 6, 7, 8], 5),
                ([5, 1, 0, 3, 4, 2, 6, 7, 8], 4),
                ([0, 5, 1, 3, 4, 2, 6, 7, 8], 4),
                ([5, 4, 1, 0, 3, 2, 6, 7, 8], 3),
                ([5, 4, 1, 3, 7, 2, 6, 0, 8], 3),
                ([5, 0, 1, 3, 4, 2, 6, 7, 8], 3),
                ([5, 4, 1, 3, 0, 2, 6, 7, 8], 2),
                ([5, 4, 1, 3, 2, 8, 6, 7, 0], 2),
                ([5, 0, 4, 3, 2, 1, 6, 7, 8], 1),
                ([5, 4, 1, 3, 2, 0, 6, 7, 8], 1),
                ([5, 4, 0, 3, 2, 1, 6, 7, 8], 0)] }

/-- The stale frontier head of `staleSigma`. -/
def staleHead : Entry :=
  ⟨12, 24, [5, 0, 2, 3, 1, 4, 6, 7, 8], [1, 2, 4, 1, 2, 4, 1]⟩

/-- The rest of the sorted frontier of `staleSigma`. -/
def staleRest : List Entry := (sortByPriority staleSigma.open_set).tail


/-- All boards with the same multiset of tiles as `grid`: the finite
universe that every recorded key lives in. -/
def permsOf (grid : Board) : Finset Board := grid.permutations.toFinset

/-- Number of boards of the universe not yet recorded in a best-cost dict —
the leading component of the loop's termination measure. -/
def unvisitedCount (grid : Board) (bc : List (Board × Nat)) : Nat :=
  ((permsOf grid).filter fun b => findCost bc b = none).card

/-- Sum of all recorded costs over the universe — with the frontier length
added, the second component of the loop's termination measure. -/
def costSum (grid : Board) (bc : List (Board × Nat)) : Nat :=
  ∑ b ∈ permsOf grid, (findCost bc b).getD 0

section SanityChecks

example : scanOrderNeighbors 2 [1, 0, 2, 3] =
    [([1, 3, 2, 0], 3), ([0, 1, 2, 3], 1)] := by decide

example : heuristic 2 [1, 0, 2, 3] = 1 := by decide

example : get_neighbors 2 [1, 0, 2, 3] =
    [([1, 3, 2, 0], 3), ([0, 1, 2, 3], 1)] := by decide

example : get_neighbors 1 [0] = [] := by decide

example : solveSliderFuel 2 [1, 0, 2, 3] 10 = some [1] := by decide

example : solveSliderFuel 2 [0, 1, 2, 3] 0 = some [] := by decide

example : applyMoves 2 [1, 0, 2, 3] [1] = some [0, 1, 2, 3] := by decide

end SanityChecks

/-! ## Row and column arithmetic of adjacent flat indices -/

theorem adj_up (size i : Nat) (h : 0 < i / size) :
    (i / size - 1) * size + i % size = i - size ∧
      (i - size) / size + 1 = i / size ∧ (i - size) % size = i % size := by
  have h0 : 0 < size := by
    rcases Nat.eq_zero_or_pos size with rfl | h0
    · simp at h
    · exact h0
  obtain ⟨q, hq⟩ : ∃ q, i / size = q + 1 :=
    ⟨i / size - 1, (Nat.succ_pred_eq_of_pos h).symm⟩
  have hid : size * (i / size) + i % size = i := Nat.div_add_mod _ _
  have hmul : size * (q + 1) = size * q + size := Nat.mul_succ _ _
  have hcomm : q * size = size * q := Nat.mul_comm _ _
  have hmod : i % size < size := Nat.mod_lt _ h0
  have hsub : i - size = size * q + i % size := by
    rw [hq] at hid
    omega
  refine ⟨?_, ?_, ?_⟩
  · rw [hq]
    have hc2 : (q + 1 - 1) * size = size * q := by
      rw [Nat.add_sub_cancel, Nat.mul_comm]
    omega
  · have hd : i % size / size = 0 := Nat.div_eq_of_lt hmod
    rw [hsub, Nat.mul_add_div h0, hd, hq]
  · have hm : i % size % size = i % size := Nat.mod_eq_of_lt hmod
    rw [hsub, Nat.mul_add_mod, hm]

theorem adj_down (size i : Nat) (h : i / size < size - 1) :
    (i / size + 1) * size + i % size = i + size ∧
      (i + size) / size = i / size + 1 ∧ (i + size) % size = i % size := by
  have h0 : 0 < size := by
    rcases Nat.eq_zero_or_pos size with rfl | h0
    · omega
    · exact h0
  have hid : size * (i / size) + i % size = i := Nat.div_add_mod _ _
  have hmul : (i / size + 1) * size = size * (i / size) + size := by
    rw [Nat.add_mul, Nat.one_mul, Nat.mul_comm]
  refine ⟨by omega, ?_, ?_⟩
  · rw [Nat.add_div_right _ h0]
  · rw [Nat.add_mod_right]

theorem adj_left (size i : Nat) (h : 0 < i % size) :
    i / size * size + (i % size - 1) = i - 1 ∧
      (i - 1) / size = i / size ∧ (i - 1) % size + 1 = i % size := by
  rcases Nat.eq_zero_or_pos size with rfl | h0
  · simp [Nat.mod_zero] at h ⊢
    omega
  have hid : size * (i / size) + i % size = i := Nat.div_add_mod _ _
  have hcomm : i / size * size = size * (i / size) := Nat.mul_comm _ _
  have hmod : i % size < size := Nat.mod_lt _ h0
  have hsub : i - 1 = size * (i / size) + (i % size - 1) := by omega
  refine ⟨by omega, ?_, ?_⟩
  · have hd : (i % size - 1) / size = 0 := Nat.div_eq_of_lt (by omega)
    rw [hsub, Nat.mul_add_div h0, hd]
    omega
  · have hm : (i % size - 1) % size = i % size - 1 := Nat.mod_eq_of_lt (by omega)
    rw [hsub, Nat.mul_add_mod, hm]
    omega

theorem adj_right (size i : Nat) (h : i % size < size - 1) :
    i / size * size + (i % size + 1) = i + 1 ∧
      (i + 1) / size = i / size ∧ (i + 1) % size = i % size + 1 := by
  have h0 : 0 < size := by
    rcases Nat.eq_zero_or_pos size with rfl | h0
    · simp [Nat.mod_zero] at h
    · exact h0
  have hid : size * (i / size) + i % size = i := Nat.div_add_mod _ _
  have hcomm : i / size * size = size * (i / size) := Nat.mul_comm _ _
  have hadd : i + 1 = size * (i / size) + (i % size + 1) := by omega
  refine ⟨by omega, ?_, ?_⟩
  · have hd : (i % size + 1) / size = 0 := Nat.div_eq_of_lt (by omega)
    rw [hadd, Nat.mul_add_div h0, hd]
    omega
  · have hm : (i % size + 1) % size = i % size + 1 := Nat.mod_eq_of_lt (by omega)
    rw [hadd, Nat.mul_add_mod, hm]



/-! ## Basic list lemmas -/

theorem getD_set_ne (l : List Nat) (i j a : Nat) (h : i ≠ j) :
    (l.set i a).getD j 0 = l.getD j 0 := by
  rw [List.getD_eq_getElem?_getD, List.getD_eq_getElem?_getD,
    List.getElem?_set_ne h]

theorem getD_set_self (l : List Nat) (i a : Nat) (h : i < l.length) :
    (l.set i a).getD i 0 = a := by
  rw [List.getD_eq_getElem?_getD]
  simp [List.getElem?_set_self, h]

theorem swapPositions_length (l : List Nat) (i j : Nat) :
    (swapPositions l i j).length = l.length := by
  simp [swapPositions]

theorem swapPositions_getD_fst (l : List Nat) (i j : Nat) (hij : i ≠ j)
    (hi : i < l.length) : (swapPositions l i j).getD i 0 = l.getD j 0 := by
  unfold swapPositions
  rw [getD_set_ne _ _ _ _ (Ne.symm hij), getD_set_self _ _ _ hi]

theorem swapPositions_getD_snd (l : List Nat) (i j : Nat)
    (hj : j < l.length) : (swapPositions l i j).getD j 0 = l.getD i 0 := by
  unfold swapPositions
  rw [getD_set_self]
  simpa using hj

theorem swapPositions_getD_other (l : List Nat) (i j k : Nat) (hik : i ≠ k)
    (hjk : j ≠ k) : (swapPositions l i j).getD k 0 = l.getD k 0 := by
  unfold swapPositions
  rw [getD_set_ne _ _ _ _ hjk, getD_set_ne _ _ _ _ hik]

theorem cons_getD_set_perm (xs : List Nat) (m x : Nat) (hm : m < xs.length) :
    (xs.getD m 0 :: xs.set m x).Perm (x :: xs) := by
  induction xs generalizing m with
  | nil => simp at hm
  | cons y ys ih =>
    cases m with
    | zero => simpa using List.Perm.swap x y ys
    | succ m =>
      have hm' : m < ys.length := by simpa using hm
      have s1 : (ys.getD m 0 :: y :: ys.set m x).Perm
          (y :: ys.getD m 0 :: ys.set m x) := List.Perm.swap _ _ _
      have s2 : (y :: ys.getD m 0 :: ys.set m x).Perm (y :: x :: ys) :=
        (ih m hm').cons y
      have s3 : (y :: x :: ys).Perm (x :: y :: ys) := List.Perm.swap _ _ _
      exact (s1.trans s2).trans s3

theorem swapPositions_perm (l : List Nat) (i j : Nat) (hi : i < l.length)
    (hj : j < l.length) : (swapPositions l i j).Perm l := by
  induction l generalizing i j with
  | nil => simp at hi
  | cons x xs ih =>
    cases i with
    | zero =>
      cases j with
      | zero => simp [swapPositions]
      | succ m =>
        have hm : m < xs.length := by simpa using hj
        have : swapPositions (x :: xs) 0 (m + 1) =
            xs.getD m 0 :: xs.set m x := by
          simp [swapPositions]
        rw [this]
        exact cons_getD_set_perm xs m x hm
    | succ n =>
      cases j with
      | zero =>
        have hn : n < xs.length := by simpa using hi
        have : swapPositions (x :: xs) (n + 1) 0 =
            xs.getD n 0 :: xs.set n x := by
          simp [swapPositions]
        rw [this]
        exact cons_getD_set_perm xs n x hn
      | succ m =>
        have hn : n < xs.length := by simpa using hi
        have hm : m < xs.length := by simpa using hj
        have : swapPositions (x :: xs) (n + 1) (m + 1) =
            x :: swapPositions xs n m := by
          simp [swapPositions]
        rw [this]
        exact (ih n m hn hm).cons x

/-! ## Well-formedness consequences -/

theorem WellFormed.size_pos {size : Nat} {b : Board} (h : WellFormed size b) :
    0 < size := h.1

theorem WellFormed.length_eq {size : Nat} {b : Board} (h : WellFormed size b) :
    b.length = size * size := by
  simpa [goalBoard] using h.2.length_eq

theorem WellFormed.nodup {size : Nat} {b : Board} (h : WellFormed size b) :
    b.Nodup := h.2.nodup_iff.mpr (by simp [goalBoard, List.nodup_range])

theorem WellFormed.zero_mem {size : Nat} {b : Board} (h : WellFormed size b) :
    0 ∈ b := by
  have : (0 : Nat) ∈ goalBoard size := by
    have := h.size_pos
    simp [goalBoard]
    positivity
  exact h.2.mem_iff.mpr this

theorem WellFormed.blank_lt {size : Nat} {b : Board} (h : WellFormed size b) :
    b.indexOf 0 < b.length :=
  List.indexOf_lt_length.mpr h.zero_mem

theorem WellFormed.getD_blank {size : Nat} {b : Board} (h : WellFormed size b) :
    b.getD (b.indexOf 0) 0 = 0 := by
  have hlt := h.blank_lt
  rw [List.getD_eq_getElem, List.getElem_indexOf hlt]

theorem WellFormed.getD_ne_blank {size : Nat} {b : Board}
    (h : WellFormed size b) {j : Nat} (hj : j < b.length)
    (hne : j ≠ b.indexOf 0) : b.getD j 0 ≠ 0 := by
  intro hz
  apply hne
  have hlt := h.blank_lt
  have h1 : b[j] = b[b.indexOf 0] := by
    rw [List.getElem_indexOf hlt]
    rw [List.getD_eq_getElem _ _ hj] at hz
    exact hz
  exact (List.Nodup.getElem_inj_iff h.nodup).mp h1

/-- A board permutation-equal to a well-formed board is well-formed. -/
theorem WellFormed.of_perm {size : Nat} {b b' : Board} (h : WellFormed size b)
    (hp : b'.Perm b) : WellFormed size b' := ⟨h.1, hp.trans h.2⟩

/-! ## Characterizing `get_neighbors` -/

theorem get_neighbors_eq_map (size : Nat) (b : Board) :
    get_neighbors size b =
      (((if 0 < b.indexOf 0 / size then [b.indexOf 0 - size] else []) ++
        (if b.indexOf 0 / size < size - 1 then [b.indexOf 0 + size] else []) ++
        (if 0 < b.indexOf 0 % size then [b.indexOf 0 - 1] else []) ++
        (if b.indexOf 0 % size < size - 1 then [b.indexOf 0 + 1] else [])).map
          fun j => (swapPositions b (b.indexOf 0) j, b.getD j 0)) := by
  unfold get_neighbors
  by_cases h1 : 0 < b.indexOf 0 / size <;>
    by_cases h2 : b.indexOf 0 / size < size - 1 <;>
      by_cases h3 : 0 < b.indexOf 0 % size <;>
        by_cases h4 : b.indexOf 0 % size < size - 1 <;>
          simp [h1, h2, h3, h4, (adj_up size (b.indexOf 0)),
            (adj_down size (b.indexOf 0)), (adj_left size (b.indexOf 0)),
            (adj_right size (b.indexOf 0))]

theorem get_neighbors_length_eq (size : Nat) (b : Board) :
    (get_neighbors size b).length =
      (if 0 < b.indexOf 0 / size then 1 else 0) +
      (if b.indexOf 0 / size < size - 1 then 1 else 0) +
      (if 0 < b.indexOf 0 % size then 1 else 0) +
      (if b.indexOf 0 % size < size - 1 then 1 else 0) := by
  rw [get_neighbors_eq_map]
  by_cases h1 : 0 < b.indexOf 0 / size <;>
    by_cases h2 : b.indexOf 0 / size < size - 1 <;>
      by_cases h3 : 0 < b.indexOf 0 % size <;>
        by_cases h4 : b.indexOf 0 % size < size - 1 <;>
          simp [h1, h2, h3, h4]

theorem scanOrderNeighbors_eq (size : Nat) (b : Board) (h0 : 0 < size)
    (hi : b.indexOf 0 < size * size) :
    scanOrderNeighbors size b = get_neighbors size b := by
  rw [get_neighbors_eq_map]
  simp only [scanOrderNeighbors]
  have hr : b.indexOf 0 / size < size := (Nat.div_lt_iff_lt_mul h0).mpr hi
  have hc : b.indexOf 0 % size < size := Nat.mod_lt _ h0
  have hcast_div : ((b.indexOf 0 : Nat) : Int) / (size : Int) =
      ((b.indexOf 0 / size : Nat) : Int) := by norm_cast
  have hcast_mod : ((b.indexOf 0 : Nat) : Int) % (size : Int) =
      ((b.indexOf 0 % size : Nat) : Int) := by norm_cast
  rw [hcast_div, hcast_mod]
  set q := b.indexOf 0 / size with hqdef
  set r := b.indexOf 0 % size with hrdef
  set i := b.indexOf 0 with hIdef
  have hidN : size * q + r = i := by
    rw [hqdef, hrdef, hIdef]
    exact Nat.div_add_mod _ _
  have hidInt : (size : Int) * (q : Int) + (r : Int) = (i : Int) := by
    exact_mod_cast hidN
  clear hqdef hrdef hIdef
  clear_value q r i
  have hJ1 : 0 < q → (((q : Int) - 1) * (size : Int) + (r : Int)).toNat =
      i - size := by
    intro h1
    have hge : size ≤ i := by
      have hm := Nat.le_mul_of_pos_right size h1
      omega
    have heq : ((q : Int) - 1) * (size : Int) + (r : Int) =
        ((i - size : Nat) : Int) := by
      push_cast [hge]
      linear_combination hidInt
    rw [heq, Int.toNat_natCast]
  have hJ2 : (((q : Int) + 1) * (size : Int) + (r : Int)).toNat = i + size := by
    have heq : ((q : Int) + 1) * (size : Int) + (r : Int) =
        ((i + size : Nat) : Int) := by
      push_cast
      linear_combination hidInt
    rw [heq, Int.toNat_natCast]
  have hJ3 : 0 < r → ((q : Int) * (size : Int) + ((r : Int) - 1)).toNat =
      i - 1 := by
    intro h3
    have hge : 1 ≤ i := by omega
    have heq : (q : Int) * (size : Int) + ((r : Int) - 1) =
        ((i - 1 : Nat) : Int) := by
      push_cast [hge]
      linear_combination hidInt
    rw [heq, Int.toNat_natCast]
  have hJ4 : ((q : Int) * (size : Int) + ((r : Int) + 1)).toNat = i + 1 := by
    have heq : (q : Int) * (size : Int) + ((r : Int) + 1) =
        ((i + 1 : Nat) : Int) := by
      push_cast
      linear_combination hidInt
    rw [heq, Int.toNat_natCast]
  have e1 : (0 ≤ (q : Int) - 1) ↔ 0 < q := by omega
  have e2 : ((q : Int) + 1 < (size : Int)) ↔ q < size - 1 := by omega
  have e3 : (0 ≤ (r : Int) - 1) ↔ 0 < r := by omega
  have e4 : ((r : Int) + 1 < (size : Int)) ↔ r < size - 1 := by omega
  have t1 : (q : Int) - 1 < (size : Int) := by omega
  have t2 : (0 ≤ (q : Int)) := by omega
  have t3 : (q : Int) < (size : Int) := by omega
  have t4 : (0 ≤ (r : Int)) := by omega
  have t5 : (r : Int) < (size : Int) := by omega
  have t6 : (r : Int) - 1 < (size : Int) := by omega
  have t7 : (0 ≤ (q : Int) + 1) := by omega
  have t8 : (0 ≤ (r : Int) + 1) := by omega
  by_cases h1 : 0 < q <;>
    by_cases h2 : q < size - 1 <;>
      by_cases h3 : 0 < r <;>
        by_cases h4 : r < size - 1 <;>
          simp [List.filter, h1, h2, h3, h4, e1, e2, e3, e4, t1, t2, t3, t4,
            t5, t6, t7, t8, hJ1, hJ2, hJ3, hJ4]

theorem mem_get_neighbors_iff (size : Nat) (b : Board) (nb : Board × Nat) :
    nb ∈ get_neighbors size b ↔
      ∃ j, AdjIdx size (b.indexOf 0) j ∧
        nb = (swapPositions b (b.indexOf 0) j, b.getD j 0) := by
  rw [get_neighbors_eq_map]
  simp only [List.mem_map, List.mem_append, List.mem_ite_nil_right,
    List.mem_singleton, AdjIdx]
  constructor
  · rintro ⟨j, hj, rfl⟩
    exact ⟨j, by tauto, rfl⟩
  · rintro ⟨j, hj, rfl⟩
    exact ⟨j, by tauto, rfl⟩

/-! ## Claim C8: the goal board returns `[]` immediately -/

/-- C8: for any `size`, calling the solver with the goal board
`[0, 1, ..., size*size-1]` returns the empty move list immediately — with
any fuel at all, i.e. before any search iteration runs. -/
theorem solveSlider_goal_immediate (size fuel : Nat) :
    solveSliderFuel size (goalBoard size) fuel = some [] := by
  simp [solveSliderFuel]

/-! ## Claim C9: an empty frontier returns `[]` -/

/-- C9: whenever the frontier is empty (the goal was never popped), the next
loop iteration terminates in the exhausted state and the solver returns the
empty move list rather than raising an error; a concrete wrong-parity 2×2
board indeed exhausts its reachable component and returns `[]`. -/
theorem solveLoop_exhausted_empty (size fuel : Nat) (σ : SearchState)
    (h : σ.open_set = []) :
    stepFn size σ = .exhausted ∧ solveLoop size (fuel + 1) σ = some [] ∧
      solveSliderFuel 2 [0, 1, 3, 2] 20 = some [] := by
  have hstep : stepFn size σ = .exhausted := by
    unfold stepFn
    rw [h]
    rfl
  refine ⟨hstep, ?_, by decide⟩
  unfold solveLoop
  rw [hstep]

/-- C9 witness: instantiation at a concrete empty-frontier state. -/
theorem solveLoop_exhausted_empty_witness :
    stepFn 2 ⟨[], 5, [([0, 1, 3, 2], 0)]⟩ = .exhausted ∧
      solveLoop 2 1 ⟨[], 5, [([0, 1, 3, 2], 0)]⟩ = some [] ∧
      solveSliderFuel 2 [0, 1, 3, 2] 20 = some [] :=
  solveLoop_exhausted_empty 2 0 ⟨[], 5, [([0, 1, 3, 2], 0)]⟩ rfl

/-! ## Claim C6: shape of `get_neighbors` -/

/-- C6 counterexample: the well-formed 1×1 board (whose blank is in a
corner) has zero neighbors, not "between 2 and 4" — the claim fails at
`size = 1`. -/
theorem get_neighbors_size_one :
    WellFormed 1 [0] ∧ BlankCorner 1 [0] ∧ get_neighbors 1 [0] = [] := by
  refine ⟨?_, ?_, by decide⟩
  · constructor
    · exact Nat.le_refl 1
    · decide
  · constructor
    · left
      decide
    · left
      decide

/-- C6 (amended): for every well-formed board with `size ≥ 2`,
`get_neighbors` returns between 2 and 4 pairs — exactly 2 with the blank in
a corner, 3 on a (non-corner) edge, 4 in the interior — and lists them in
the fixed scan order up, down, left, right of the blank (the spec-modelled
`scanOrderNeighbors`); for `size = 1` it returns no pairs.  The function is
pure, so the input board is never mutated. -/
theorem get_neighbors_counts_and_order (size : Nat) (b : Board)
    (hwf : WellFormed size b) (h2 : 2 ≤ size) :
    2 ≤ (get_neighbors size b).length ∧ (get_neighbors size b).length ≤ 4 ∧
      (BlankCorner size b → (get_neighbors size b).length = 2) ∧
      (BlankEdge size b → (get_neighbors size b).length = 3) ∧
      (BlankInterior size b → (get_neighbors size b).length = 4) ∧
      get_neighbors size b = scanOrderNeighbors size b := by
  have h0 : 0 < size := hwf.size_pos
  have hi : b.indexOf 0 < size * size := by
    have h := hwf.blank_lt
    rwa [hwf.length_eq] at h
  have hr : b.indexOf 0 / size < size := (Nat.div_lt_iff_lt_mul h0).mpr hi
  have hc : b.indexOf 0 % size < size := Nat.mod_lt _ h0
  unfold BlankEdge BlankCorner BlankInterior
  rw [get_neighbors_length_eq]
  set q := b.indexOf 0 / size with hqdef
  set r := b.indexOf 0 % size with hrdef
  clear_value q r
  refine ⟨?_, ?_, ?_, ?_, ?_, ?_⟩
  · split_ifs <;> omega
  · split_ifs <;> omega
  · intro hP
    split_ifs <;> omega
  · intro hP
    split_ifs <;> omega
  · intro hP
    split_ifs <;> omega
  · exact (scanOrderNeighbors_eq size b h0 hi).symm

/-- C6 witness: a concrete interior-blank 3×3 board with its four
neighbors, and the amended count facts instantiated there. -/
theorem get_neighbors_counts_and_order_witness :
    2 ≤ (get_neighbors 3 [1, 2, 3, 4, 0, 5, 6, 7, 8]).length ∧
      (get_neighbors 3 [1, 2, 3, 4, 0, 5, 6, 7, 8]).length ≤ 4 ∧
      (BlankCorner 3 [1, 2, 3, 4, 0, 5, 6, 7, 8] →
        (get_neighbors 3 [1, 2, 3, 4, 0, 5, 6, 7, 8]).length = 2) ∧
      (BlankEdge 3 [1, 2, 3, 4, 0, 5, 6, 7, 8] →
        (get_neighbors 3 [1, 2, 3, 4, 0, 5, 6, 7, 8]).length = 3) ∧
      (BlankInterior 3 [1, 2, 3, 4, 0, 5, 6, 7, 8] →
        (get_neighbors 3 [1, 2, 3, 4, 0, 5, 6, 7, 8]).length = 4) ∧
      get_neighbors 3 [1, 2, 3, 4, 0, 5, 6, 7, 8] =
        scanOrderNeighbors 3 [1, 2, 3, 4, 0, 5, 6, 7, 8] :=
  get_neighbors_counts_and_order 3 [1, 2, 3, 4, 0, 5, 6, 7, 8]
    (by constructor <;> decide) (by decide)

/-! ## Heuristic: sum characterization, goal value, consistency,
admissibility (claim C5) -/

theorem heuristicAux_eq_sum (size : Nat) (l : List Nat) (k : Nat) :
    heuristicAux size k l =
      ∑ i ∈ Finset.range l.length, tileDist size (k + i) (l.getD i 0) := by
  induction l generalizing k with
  | nil => simp [heuristicAux]
  | cons t rest ih =>
    rw [heuristicAux, ih (k + 1)]
    rw [List.length_cons, Finset.sum_range_succ']
    simp only [List.getD_cons_succ, List.getD_cons_zero, Nat.add_zero]
    rw [Nat.add_comm (∑ i ∈ Finset.range rest.length,
      tileDist size (k + (i + 1)) (rest.getD i 0)) (tileDist size k t)]
    congr 1
    apply Finset.sum_congr rfl
    intro i _
    congr 1
    omega

theorem heuristic_eq_sum (size : Nat) (l : List Nat) :
    heuristic size l =
      ∑ i ∈ Finset.range l.length, tileDist size i (l.getD i 0) := by
  rw [heuristic, heuristicAux_eq_sum]
  apply Finset.sum_congr rfl
  intro i _
  rw [Nat.zero_add]

theorem tileDist_self (size v : Nat) : tileDist size v v = 0 := by
  unfold tileDist
  split_ifs <;> simp

theorem tileDist_blank (size idx : Nat) : tileDist size idx 0 = 0 := by
  simp [tileDist]

theorem heuristic_goalBoard (size : Nat) : heuristic size (goalBoard size) = 0 := by
  rw [goalBoard, heuristic_eq_sum]
  apply Finset.sum_eq_zero
  intro i hi
  rw [Finset.mem_range] at hi
  have hl : i < (List.range (size * size)).length := by simpa using hi
  rw [List.getD_eq_getElem _ _ hl, List.getElem_range]
  exact tileDist_self size i

theorem heuristic_set (size : Nat) (l : List Nat) (i v : Nat)
    (h : i < l.length) :
    heuristic size (l.set i v) + tileDist size i (l.getD i 0) =
      heuristic size l + tileDist size i v := by
  rw [heuristic_eq_sum, heuristic_eq_sum, List.length_set]
  have hmem : i ∈ Finset.range l.length := Finset.mem_range.mpr h
  rw [← Finset.add_sum_erase _ _ hmem, ← Finset.add_sum_erase _ _ hmem]
  have hset : (l.set i v).getD i 0 = v := getD_set_self l i v h
  have hoth : ∀ j ∈ (Finset.range l.length).erase i,
      (l.set i v).getD j 0 = l.getD j 0 := by
    intro j hj
    exact getD_set_ne l i j v (Ne.symm (Finset.mem_erase.mp hj).1)
  rw [hset, Finset.sum_congr rfl fun j hj => by rw [hoth j hj]]
  omega

theorem heuristic_swap (size : Nat) (l : List Nat) (i j : Nat) (hij : i ≠ j)
    (hi : i < l.length) (hj : j < l.length) (hbl : l.getD i 0 = 0) :
    heuristic size (swapPositions l i j) + tileDist size j (l.getD j 0) =
      heuristic size l + tileDist size i (l.getD j 0) := by
  unfold swapPositions
  have hlen : j < (l.set i (l.getD j 0)).length := by simpa using hj
  have h1 := heuristic_set size (l.set i (l.getD j 0)) j (l.getD i 0) hlen
  have h2 := heuristic_set size l i (l.getD j 0) hi
  have hgd : (l.set i (l.getD j 0)).getD j 0 = l.getD j 0 :=
    getD_set_ne l i j _ hij
  rw [hgd] at h1
  rw [hbl] at h1 h2 ⊢
  rw [tileDist_blank] at h1 h2
  omega

/-- Moving one cell up, down, left or right changes a non-blank tile's
Manhattan distance by exactly one. -/
theorem tileDist_adj (size i j t : Nat) (hadj : AdjIdx size i j)
    (ht : t ≠ 0) :
    tileDist size i t + 1 = tileDist size j t ∨
      tileDist size j t + 1 = tileDist size i t := by
  unfold tileDist
  rw [if_pos ht, if_pos ht]
  rcases hadj with ⟨h1, rfl⟩ | ⟨h2, rfl⟩ | ⟨h3, rfl⟩ | ⟨h4, rfl⟩
  · obtain ⟨e1, e2, e3⟩ := adj_up size i h1
    rw [e3, ← e2]
    omega
  · obtain ⟨e1, e2, e3⟩ := adj_down size i h2
    rw [e2, e3]
    omega
  · obtain ⟨e1, e2, e3⟩ := adj_left size i h3
    rw [e2, ← e3]
    omega
  · obtain ⟨e1, e2, e3⟩ := adj_right size i h4
    rw [e2, e3]
    omega

/-- Adjacent indices are in range and distinct from the blank index. -/
theorem AdjIdx.bounds (size i j : Nat) (hadj : AdjIdx size i j)
    (hi : i < size * size) : j < size * size ∧ j ≠ i := by
  rcases hadj with ⟨h1, rfl⟩ | ⟨h2, rfl⟩ | ⟨h3, rfl⟩ | ⟨h4, rfl⟩
  · have h0 : 0 < size := by
      rcases Nat.eq_zero_or_pos size with rfl | h0
      · simp at h1
      · exact h0
    have hge : size ≤ i := by
      have hm := Nat.le_mul_of_pos_right size h1
      have hdm := Nat.div_mul_le_self i size
      have hc2 : i / size * size = size * (i / size) := Nat.mul_comm _ _
      omega
    omega
  · have h0 : 0 < size := by
      rcases Nat.eq_zero_or_pos size with rfl | h0
      · rw [Nat.div_zero] at h2
        omega
      · exact h0
    have hid : size * (i / size) + i % size = i := Nat.div_add_mod _ _
    have hmul : size * (i / size + 1) ≤ size * (size - 1) :=
      Nat.mul_le_mul_left size (by omega)
    have hmul2 : size * (size - 1) + size = size * size := by
      obtain ⟨s, rfl⟩ : ∃ s, size = s + 1 := ⟨size - 1, by omega⟩
      simp only [Nat.add_sub_cancel]
      ring
    have hms : size * (i / size + 1) = size * (i / size) + size :=
      Nat.mul_succ _ _
    have hmod : i % size < size := Nat.mod_lt _ h0
    omega
  · have hid : size * (i / size) + i % size = i := Nat.div_add_mod _ _
    omega
  · have h0 : 0 < size := by
      rcases Nat.eq_zero_or_pos size with rfl | h0
      · rw [Nat.mod_zero] at h4
        omega
      · exact h0
    have hid : size * (i / size) + i % size = i := Nat.div_add_mod _ _
    have hdiv : i / size < size := (Nat.div_lt_iff_lt_mul h0).mpr hi
    have hmul : size * (i / size) ≤ size * (size - 1) :=
      Nat.mul_le_mul_left size (by omega)
    have hmul2 : size * (size - 1) + size = size * size := by
      obtain ⟨s, rfl⟩ : ∃ s, size = s + 1 := ⟨size - 1, by omega⟩
      simp only [Nat.add_sub_cancel]
      ring
    omega

/-- Destructuring a neighbor of a well-formed board. -/
theorem mem_get_neighbors_wf {size : Nat} {b : Board} {nb : Board} {t : Nat}
    (hwf : WellFormed size b) (hmem : (nb, t) ∈ get_neighbors size b) :
    ∃ j, AdjIdx size (b.indexOf 0) j ∧ nb = swapPositions b (b.indexOf 0) j ∧
      t = b.getD j 0 ∧ j < b.length ∧ j ≠ b.indexOf 0 ∧ t ≠ 0 ∧ nb.Perm b := by
  obtain ⟨j, hadj, hpair⟩ := (mem_get_neighbors_iff size b (nb, t)).mp hmem
  obtain ⟨rfl, rfl⟩ : nb = swapPositions b (b.indexOf 0) j ∧ t = b.getD j 0 := by
    constructor
    · exact congrArg Prod.fst hpair
    · exact congrArg Prod.snd hpair
  have hilen := hwf.blank_lt
  have hlen := hwf.length_eq
  obtain ⟨hjlt, hjne⟩ := AdjIdx.bounds size (b.indexOf 0) j hadj (hlen ▸ hilen)
  have hjb : j < b.length := by omega
  refine ⟨j, hadj, rfl, rfl, hjb, hjne, ?_, ?_⟩
  · exact hwf.getD_ne_blank hjb hjne
  · exact swapPositions_perm b _ j hilen hjb

/-- Neighbors of a well-formed board are well-formed. -/
theorem get_neighbors_wf {size : Nat} {b : Board} {nb : Board} {t : Nat}
    (hwf : WellFormed size b) (hmem : (nb, t) ∈ get_neighbors size b) :
    WellFormed size nb := by
  obtain ⟨j, _, _, _, _, _, _, hperm⟩ := mem_get_neighbors_wf hwf hmem
  exact hwf.of_perm hperm

/-- One slide changes the heuristic by exactly one (consistency). -/
theorem heuristic_consistency {size : Nat} {b : Board} {nb : Board} {t : Nat}
    (hwf : WellFormed size b) (hmem : (nb, t) ∈ get_neighbors size b) :
    heuristic size nb + 1 = heuristic size b ∨
      heuristic size b + 1 = heuristic size nb := by
  obtain ⟨j, hadj, rfl, rfl, hjb, hjne, ht, _⟩ := mem_get_neighbors_wf hwf hmem
  have hswap := heuristic_swap size b (b.indexOf 0) j (Ne.symm hjne)
    hwf.blank_lt hjb hwf.getD_blank
  have hdich := tileDist_adj size (b.indexOf 0) j (b.getD j 0) hadj ht
  omega

/-- A `find?` that can only succeed at one element returns that element. -/
theorem find?_eq_some_of_unique {α : Type} {l : List α} {P : α → Bool} {a : α}
    (ha : a ∈ l) (hPa : P a = true) (huniq : ∀ x ∈ l, P x = true → x = a) :
    l.find? P = some a := by
  induction l with
  | nil => simp at ha
  | cons x xs ih =>
    rcases List.mem_cons.mp ha with rfl | hmem
    · rw [List.find?_cons, hPa]
    · rw [List.find?_cons]
      cases hPx : P x with
      | true => rw [huniq x (List.mem_cons_self x xs) hPx]
      | false =>
        exact ih hmem fun y hy hPy => huniq y (List.mem_cons_of_mem x hy) hPy

/-- Two neighbor moves with the same moved tile are the same move (the moved
tiles of a well-formed board's neighbors are pairwise distinct). -/
theorem get_neighbors_tile_inj {size : Nat} {b : Board} {p q : Board × Nat}
    (hwf : WellFormed size b) (hp : p ∈ get_neighbors size b)
    (hq : q ∈ get_neighbors size b) (ht : p.2 = q.2) : p = q := by
  obtain ⟨j, hadjj, hpj⟩ := (mem_get_neighbors_iff size b p).mp hp
  obtain ⟨k, hadjk, hqk⟩ := (mem_get_neighbors_iff size b q).mp hq
  have hilen := hwf.blank_lt
  have hlen := hwf.length_eq
  obtain ⟨hjlt, _⟩ := AdjIdx.bounds size (b.indexOf 0) j hadjj (hlen ▸ hilen)
  obtain ⟨hklt, _⟩ := AdjIdx.bounds size (b.indexOf 0) k hadjk (hlen ▸ hilen)
  have hjb : j < b.length := by omega
  have hkb : k < b.length := by omega
  have hb1 : b.getD j 0 = b.getD k 0 := by
    have h1 := congrArg Prod.snd hpj
    have h2 := congrArg Prod.snd hqk
    simp only at h1 h2
    rw [h1, h2] at ht
    exact ht
  have hjk : j = k := by
    rw [List.getD_eq_getElem _ _ hjb, List.getD_eq_getElem _ _ hkb] at hb1
    exact (List.Nodup.getElem_inj_iff hwf.nodup).mp hb1
  rw [hpj, hqk, hjk]

/-- For well-formed boards, applying the moved tile of a listed neighbor
produces exactly that neighbor. -/
theorem applyMove_of_mem {size : Nat} {b : Board} {nb : Board} {t : Nat}
    (hwf : WellFormed size b) (hmem : (nb, t) ∈ get_neighbors size b) :
    applyMove size b t = some nb := by
  unfold applyMove
  rw [find?_eq_some_of_unique hmem (by simp)]
  · rfl
  · intro x hx hPx
    refine get_neighbors_tile_inj hwf hx hmem ?_
    simpa using hPx

/-- Conversely, a successful `applyMove` names a listed neighbor. -/
theorem applyMove_mem {size : Nat} {b : Board} {nb : Board} {t : Nat}
    (h : applyMove size b t = some nb) : (nb, t) ∈ get_neighbors size b := by
  unfold applyMove at h
  cases hf : (get_neighbors size b).find? fun p => p.2 = t with
  | none => rw [hf] at h; simp at h
  | some q =>
    rw [hf] at h
    simp at h
    have hqmem := List.mem_of_find?_eq_some hf
    have hqP := List.find?_some hf
    simp only [decide_eq_true_eq] at hqP
    have hq : q = (nb, t) := by
      obtain ⟨q1, q2⟩ := q
      simp only at hqP h ⊢
      rw [h, hqP]
    rwa [hq] at hqmem

/-- Admissibility: the heuristic never exceeds the length of any move list
that solves the board. -/
theorem heuristic_admissible {size : Nat} {b : Board} (p : List Nat)
    (hwf : WellFormed size b)
    (hp : applyMoves size b p = some (goalBoard size)) :
    heuristic size b ≤ p.length := by
  induction p generalizing b with
  | nil =>
    unfold applyMoves at hp
    have : b = goalBoard size := by
      exact Option.some_injective _ hp
    rw [this, heuristic_goalBoard]
    exact Nat.zero_le _
  | cons m ms ih =>
    unfold applyMoves at hp
    cases happ : applyMove size b m with
    | none => rw [happ] at hp; exact absurd hp (by simp)
    | some b1 =>
      rw [happ] at hp
      have hmem := applyMove_mem happ
      have hwf1 : WellFormed size b1 := get_neighbors_wf hwf hmem
      have hcons := heuristic_consistency hwf hmem
      have hih := ih hwf1 hp
      simp only [List.length_cons]
      omega

/-! ## Claim C5: the heuristic is admissible and consistent -/

/-- C5: on every well-formed board the heuristic (total Manhattan distance
of the non-blank tiles) never exceeds the number of moves of any solving
move sequence (admissibility), and across every single slide it changes by
exactly plus or minus one (consistency — only the moved tile's term
changes). -/
theorem heuristic_admissible_and_consistent (size : Nat) (b : Board)
    (hwf : WellFormed size b) :
    (∀ p : List Nat, applyMoves size b p = some (goalBoard size) →
      heuristic size b ≤ p.length) ∧
    (∀ nb t, (nb, t) ∈ get_neighbors size b →
      heuristic size nb + 1 = heuristic size b ∨
        heuristic size b + 1 = heuristic size nb) := by
  constructor
  · intro p hp
    exact heuristic_admissible p hwf hp
  · intro nb t hmem
    exact heuristic_consistency hwf hmem

/-- C5 witness: instantiated at the 2×2 board `[1, 0, 2, 3]`, its solving
sequence `[1]`, and its neighbor reached by sliding tile `1`. -/
theorem heuristic_admissible_and_consistent_witness :
    heuristic 2 [1, 0, 2, 3] ≤ [1].length ∧
      (heuristic 2 [0, 1, 2, 3] + 1 = heuristic 2 [1, 0, 2, 3] ∨
        heuristic 2 [1, 0, 2, 3] + 1 = heuristic 2 [0, 1, 2, 3]) := by
  have h := heuristic_admissible_and_consistent 2 [1, 0, 2, 3]
    (by constructor <;> decide)
  exact ⟨h.1 [1] (by decide), h.2 [0, 1, 2, 3] 1 (by decide)⟩

/-! ## The stable sort: permutation, sortedness, stability (claim C4) -/

theorem insertByPriority_perm (e : Entry) (l : List Entry) :
    (insertByPriority e l).Perm (e :: l) := by
  induction l with
  | nil => exact List.Perm.refl _
  | cons f rest ih =>
    rw [insertByPriority]
    split_ifs with hlt
    · have h1 : (f :: insertByPriority e rest).Perm (f :: e :: rest) := ih.cons f
      exact h1.trans (List.Perm.swap e f rest)
    · exact List.Perm.refl _

theorem sortByPriority_perm (l : List Entry) : (sortByPriority l).Perm l := by
  induction l with
  | nil => exact List.Perm.refl _
  | cons e rest ih =>
    exact (insertByPriority_perm e (sortByPriority rest)).trans (ih.cons e)

theorem mem_sortByPriority {a : Entry} {l : List Entry} :
    a ∈ sortByPriority l ↔ a ∈ l := (sortByPriority_perm l).mem_iff

theorem insertByPriority_sorted (e : Entry) (l : List Entry)
    (hl : l.Pairwise fun a b => a.priority ≤ b.priority) :
    (insertByPriority e l).Pairwise fun a b => a.priority ≤ b.priority := by
  induction l with
  | nil => simp [insertByPriority]
  | cons f rest ih =>
    rw [insertByPriority]
    rw [List.pairwise_cons] at hl
    split_ifs with hlt
    · rw [List.pairwise_cons]
      constructor
      · intro x hx
        rcases List.mem_cons.mp ((insertByPriority_perm e rest).mem_iff.mp hx)
          with rfl | hx2
        · exact Nat.le_of_lt hlt
        · exact hl.1 x hx2
      · exact ih hl.2
    · rw [List.pairwise_cons]
      constructor
      · intro x hx
        rcases List.mem_cons.mp hx with rfl | hx2
        · omega
        · have := hl.1 x hx2
          omega
      · exact List.pairwise_cons.mpr hl


theorem sortByPriority_sorted (l : List Entry) :
    (sortByPriority l).Pairwise fun a b => a.priority ≤ b.priority := by
  induction l with
  | nil => simp [sortByPriority]
  | cons e rest ih => exact insertByPriority_sorted e _ ih

theorem insertByPriority_pairwise (e : Entry) (l : List Entry)
    (hl : l.Pairwise TieBefore) (he : ∀ f ∈ l, TieBefore e f) :
    (insertByPriority e l).Pairwise TieBefore := by
  induction l with
  | nil => simp [insertByPriority, List.pairwise_cons]
  | cons f rest ih =>
    rw [insertByPriority]
    rw [List.pairwise_cons] at hl
    split_ifs with hlt
    · rw [List.pairwise_cons]
      constructor
      · intro x hx
        rcases List.mem_cons.mp ((insertByPriority_perm e rest).mem_iff.mp hx)
          with rfl | hx2
        · intro hpe
          omega
        · exact hl.1 x hx2
      · exact ih hl.2 fun g hg => he g (List.mem_cons_of_mem f hg)
    · rw [List.pairwise_cons]
      constructor
      · intro x hx
        rcases List.mem_cons.mp hx with rfl | hx2
        · exact he _ (List.mem_cons_self _ _)
        · exact he x (List.mem_cons_of_mem f hx2)
      · exact List.pairwise_cons.mpr hl

theorem sortByPriority_pairwise (l : List Entry) (hl : l.Pairwise TieBefore) :
    (sortByPriority l).Pairwise TieBefore := by
  induction l with
  | nil => simp [sortByPriority]
  | cons e rest ih =>
    rw [List.pairwise_cons] at hl
    exact insertByPriority_pairwise e _ (ih hl.2)
      fun f hf => hl.1 f (mem_sortByPriority.mp hf)

/-- The head of the stable sort is the lexicographic minimum by
(priority, counter). -/
theorem sortByPriority_head_min (l : List Entry) (e : Entry)
    (rest : List Entry) (hsort : sortByPriority l = e :: rest)
    (hpw : l.Pairwise TieBefore) :
    e ∈ l ∧ ∀ f ∈ l, e.priority ≤ f.priority ∧
      (f.priority = e.priority → f ≠ e → e.counter < f.counter) := by
  have hperm := sortByPriority_perm l
  rw [hsort] at hperm
  have hsorted := sortByPriority_sorted l
  have hstab := sortByPriority_pairwise l hpw
  rw [hsort, List.pairwise_cons] at hsorted hstab
  constructor
  · exact hperm.mem_iff.mp (List.mem_cons_self e rest)
  · intro f hf
    rcases List.mem_cons.mp (hperm.mem_iff.mpr hf) with rfl | hf2
    · exact ⟨Nat.le_refl _, fun _ hne => absurd rfl hne⟩
    · exact ⟨hsorted.1 f hf2, fun hpe _ => hstab.1 f hf2 hpe.symm⟩

/-! ## The counter invariant -/

theorem counterInv_init (size : Nat) (grid : List Nat) :
    CounterInv (initState size grid) := by
  constructor
  · intro e he
    rcases List.mem_singleton.mp he with rfl
    exact Nat.le_refl 0
  · simp [initState]

theorem relax_none (size current_cost : Nat) (path : List Nat)
    (acc : SearchState) (nb : Board × Nat)
    (hfind : findCost acc.best_cost nb.1 = none) :
    relax size current_cost path acc nb =
      pushState size current_cost path acc nb := by
  unfold relax pushState
  rw [hfind]

theorem relax_some_lt (size current_cost : Nat) (path : List Nat)
    (acc : SearchState) (nb : Board × Nat) (old : Nat)
    (hfind : findCost acc.best_cost nb.1 = some old)
    (hlt : current_cost + 1 < old) :
    relax size current_cost path acc nb =
      pushState size current_cost path acc nb := by
  unfold relax pushState
  rw [hfind]
  simp only [if_pos hlt]

theorem relax_some_ge (size current_cost : Nat) (path : List Nat)
    (acc : SearchState) (nb : Board × Nat) (old : Nat)
    (hfind : findCost acc.best_cost nb.1 = some old)
    (hge : ¬current_cost + 1 < old) :
    relax size current_cost path acc nb = acc := by
  unfold relax
  rw [hfind]
  simp only [if_neg hge]

theorem counterInv_pushState (size current_cost : Nat) (path : List Nat)
    (acc : SearchState) (nb : Board × Nat) (h : CounterInv acc) :
    CounterInv (pushState size current_cost path acc nb) := by
  obtain ⟨hbound, hpw⟩ := h
  unfold pushState CounterInv
  constructor
  · intro e he
    rcases List.mem_append.mp he with he2 | he2
    · exact Nat.le_succ_of_le (hbound e he2)
    · rcases List.mem_singleton.mp he2 with rfl
      exact Nat.le_refl _
  · rw [List.pairwise_append]
    refine ⟨hpw, List.pairwise_singleton _ _, ?_⟩
    intro a ha b hb
    rcases List.mem_singleton.mp hb with rfl
    intro _
    exact Nat.lt_succ_of_le (hbound a ha)

theorem counterInv_relax (size current_cost : Nat) (path : List Nat)
    (acc : SearchState) (nb : Board × Nat) (h : CounterInv acc) :
    CounterInv (relax size current_cost path acc nb) := by
  cases hfind : findCost acc.best_cost nb.1 with
  | some old =>
    by_cases hlt : current_cost + 1 < old
    · rw [relax_some_lt size current_cost path acc nb old hfind hlt]
      exact counterInv_pushState size current_cost path acc nb h
    · rw [relax_some_ge size current_cost path acc nb old hfind hlt]
      exact h
  | none =>
    rw [relax_none size current_cost path acc nb hfind]
    exact counterInv_pushState size current_cost path acc nb h

theorem counterInv_foldl (size current_cost : Nat) (path : List Nat)
    (nbs : List (Board × Nat)) (acc : SearchState) (h : CounterInv acc) :
    CounterInv (nbs.foldl (relax size current_cost path) acc) := by
  induction nbs generalizing acc with
  | nil => exact h
  | cons nb rest ih =>
    exact ih _ (counterInv_relax size current_cost path acc nb h)

/-- Destructuring a `.next` step: a non-goal entry was popped from the
sorted frontier and its neighbors were processed. -/
theorem stepFn_next_elim {size : Nat} {σ σ' : SearchState}
    (hstep : stepFn size σ = .next σ') :
    ∃ e rest, sortByPriority σ.open_set = e :: rest ∧
      ¬e.state = goalBoard size ∧
      σ' = (get_neighbors size e.state).foldl
        (relax size ((findCost σ.best_cost e.state).getD 0) e.path)
        ⟨rest, σ.counter, σ.best_cost⟩ := by
  unfold stepFn at hstep
  cases hsort : sortByPriority σ.open_set with
  | nil => rw [hsort] at hstep; exact absurd hstep (by simp)
  | cons e rest =>
    simp only [hsort] at hstep
    by_cases hgoal : e.state = goalBoard size
    · rw [if_pos hgoal] at hstep
      exact absurd hstep (by simp)
    · rw [if_neg hgoal] at hstep
      injection hstep with h2
      exact ⟨e, rest, rfl, hgoal, h2.symm⟩

/-- Destructuring a `.solved` step: the popped entry was the goal and its
path is returned. -/
theorem stepFn_solved_elim {size : Nat} {σ : SearchState} {p : List Nat}
    (hstep : stepFn size σ = .solved p) :
    ∃ e rest, sortByPriority σ.open_set = e :: rest ∧
      e.state = goalBoard size ∧ p = e.path := by
  unfold stepFn at hstep
  cases hsort : sortByPriority σ.open_set with
  | nil => rw [hsort] at hstep; exact absurd hstep (by simp)
  | cons e rest =>
    simp only [hsort] at hstep
    by_cases hgoal : e.state = goalBoard size
    · rw [if_pos hgoal] at hstep
      injection hstep with h2
      exact ⟨e, rest, rfl, hgoal, h2.symm⟩
    · rw [if_neg hgoal] at hstep
      exact absurd hstep (by simp)

/-- Destructuring an `.exhausted` step: the frontier was empty. -/
theorem stepFn_exhausted_elim {size : Nat} {σ : SearchState}
    (hstep : stepFn size σ = .exhausted) : σ.open_set = [] := by
  unfold stepFn at hstep
  cases hsort : sortByPriority σ.open_set with
  | nil =>
    have := sortByPriority_perm σ.open_set
    rw [hsort] at this
    exact this.symm.eq_nil
  | cons e rest =>
    simp only [hsort] at hstep
    by_cases hgoal : e.state = goalBoard size
    · rw [if_pos hgoal] at hstep
      exact absurd hstep (by simp)
    · rw [if_neg hgoal] at hstep
      exact absurd hstep (by simp)

theorem counterInv_step (size : Nat) (σ σ' : SearchState)
    (h : CounterInv σ) (hstep : stepFn size σ = .next σ') : CounterInv σ' := by
  obtain ⟨e, rest, hsort, hgoal, rfl⟩ := stepFn_next_elim hstep
  apply counterInv_foldl
  constructor
  · intro f hf
    exact h.1 f (mem_sortByPriority.mp (hsort ▸ List.mem_cons_of_mem e hf))
  · have hpw := sortByPriority_pairwise σ.open_set h.2
    rw [hsort, List.pairwise_cons] at hpw
    exact hpw.2

theorem counterInv_iterate (size : Nat) (n : Nat) (σ σ' : SearchState)
    (h : CounterInv σ) (hiter : iterateLoop size n σ = some σ') :
    CounterInv σ' := by
  induction n generalizing σ with
  | zero =>
    rw [iterateLoop] at hiter
    cases hiter
    exact h
  | succ n ih =>
    rw [iterateLoop] at hiter
    cases hstep : stepFn size σ with
    | next σ1 =>
      rw [hstep] at hiter
      exact ih σ1 (counterInv_step size σ σ1 h hstep) hiter
    | solved p => rw [hstep] at hiter; exact absurd hiter (by simp)
    | exhausted => rw [hstep] at hiter; exact absurd hiter (by simp)

/-! ## Claim C4: the popped entry is the (priority, counter) minimum -/

/-- C4: at every iteration of the main loop, the entry popped after sorting
(the head of the sorted open set) has the smallest priority, and among
entries of equal smallest priority the smallest insertion counter — i.e.
the entry inserted earliest is removed first. -/
theorem pop_lex_min (size : Nat) (grid : List Nat) (n : Nat)
    (σ : SearchState) (hiter : iterateLoop size n (initState size grid) = some σ)
    (e : Entry) (rest : List Entry)
    (hsort : sortByPriority σ.open_set = e :: rest) :
    e ∈ σ.open_set ∧ ∀ f ∈ σ.open_set, e.priority ≤ f.priority ∧
      (f.priority = e.priority → f ≠ e → e.counter < f.counter) :=
  sortByPriority_head_min σ.open_set e rest hsort
    (counterInv_iterate size n _ σ (counterInv_init size grid) hiter).2

/-- C4 witness: the first iteration on the board `[1, 0, 2, 3]` pops the
single seeded entry. -/
theorem pop_lex_min_witness :
    (⟨1, 0, [1, 0, 2, 3], []⟩ : Entry) ∈ (initState 2 [1, 0, 2, 3]).open_set ∧
      ∀ f ∈ (initState 2 [1, 0, 2, 3]).open_set,
        (⟨1, 0, [1, 0, 2, 3], []⟩ : Entry).priority ≤ f.priority ∧
          (f.priority = (⟨1, 0, [1, 0, 2, 3], []⟩ : Entry).priority →
            f ≠ ⟨1, 0, [1, 0, 2, 3], []⟩ →
            (⟨1, 0, [1, 0, 2, 3], []⟩ : Entry).counter < f.counter) :=
  pop_lex_min 2 [1, 0, 2, 3] 0 (initState 2 [1, 0, 2, 3]) rfl
    ⟨1, 0, [1, 0, 2, 3], []⟩ [] (by decide)

/-! ## Dict lemmas and path lemmas for the search invariant -/

theorem findCost_update_self (k : Board) (v : Nat) (m : List (Board × Nat)) :
    findCost ((k, v) :: m) k = some v := by
  simp [findCost]

theorem findCost_update_ne (k : Board) (v : Nat) (m : List (Board × Nat))
    (b : Board) (h : ¬k = b) : findCost ((k, v) :: m) b = findCost m b := by
  simp [findCost, h]

theorem findCost_update_cases (k : Board) (v : Nat) (m : List (Board × Nat))
    (b : Board) (w : Nat) (h : findCost ((k, v) :: m) b = some w) :
    (b = k ∧ w = v) ∨ (¬k = b ∧ findCost m b = some w) := by
  by_cases hk : k = b
  · left
    rw [← hk, findCost_update_self] at h
    exact ⟨hk.symm, (Option.some_injective _ h).symm⟩
  · right
    rw [findCost_update_ne k v m b hk] at h
    exact ⟨hk, h⟩

theorem applyMoves_snoc (size : Nat) (b : Board) (p : List Nat) (m : Nat) :
    applyMoves size b (p ++ [m]) =
      (applyMoves size b p).bind fun b1 => applyMove size b1 m := by
  induction p generalizing b with
  | nil =>
    show applyMoves size b [m] = (applyMoves size b []).bind fun b1 => applyMove size b1 m
    have h0 : applyMoves size b [] = some b := rfl
    rw [h0, Option.some_bind]
    unfold applyMoves
    cases h : applyMove size b m with
    | none => rfl
    | some b1 => rfl
  | cons q qs ih =>
    show applyMoves size b (q :: (qs ++ [m])) = _
    unfold applyMoves
    cases h : applyMove size b q with
    | none => rfl
    | some b1 => exact ih b1

/-! ## The search invariant: initialization -/

theorem searchInv_init (size : Nat) (grid : Board) :
    SearchInv size grid (initState size grid) := by
  refine ⟨?_, ?_, ?_, ?_⟩
  · intro e he
    rcases List.mem_singleton.mp he with rfl
    exact ⟨rfl, rfl, 0, findCost_update_self grid 0 [], Nat.le_refl 0⟩
  · intro s v h
    rcases findCost_update_cases grid 0 [] s v h with ⟨rfl, rfl⟩ | ⟨_, h2⟩
    · exact ⟨List.Perm.refl _, [], rfl, rfl⟩
    · exact absurd h2 (by simp [findCost])
  · exact findCost_update_self grid 0 []
  · intro s v h
    rcases findCost_update_cases grid 0 [] s v h with ⟨hs, hv⟩ | ⟨_, h2⟩
    · left
      subst hv
      exact ⟨⟨0 + heuristic size grid, 0, grid, []⟩,
        List.mem_singleton.mpr rfl, hs.symm, rfl⟩
    · exact absurd h2 (by simp [findCost])

/-! ## Stale pops: the expansion is a no-op -/

theorem sorted_head_le (l : List Entry) (e : Entry) (rest : List Entry)
    (hsort : sortByPriority l = e :: rest) :
    ∀ f ∈ l, f = e ∨ e.priority ≤ f.priority := by
  have hperm := sortByPriority_perm l
  rw [hsort] at hperm
  have hsorted := sortByPriority_sorted l
  rw [hsort, List.pairwise_cons] at hsorted
  intro f hf
  rcases List.mem_cons.mp (hperm.mem_iff.mpr hf) with rfl | hf2
  · exact Or.inl rfl
  · exact Or.inr (hsorted.1 f hf2)

theorem sorted_head_mem (l : List Entry) (e : Entry) (rest : List Entry)
    (hsort : sortByPriority l = e :: rest) : e ∈ l := by
  refine mem_sortByPriority.mp ?_
  rw [hsort]
  exact List.mem_cons_self _ _

/-- A popped entry whose path is longer than its state's recorded cost sits
over an already-expanded state: all its neighbors are recorded with cost at
most `v + 1` (and it is not the goal). -/
theorem stale_closed (size : Nat) (grid : Board) (σ : SearchState)
    (hInv : SearchInv size grid σ) (e : Entry) (rest : List Entry)
    (hsort : sortByPriority σ.open_set = e :: rest) (v : Nat)
    (hv : findCost σ.best_cost e.state = some v)
    (hstale : v < e.path.length) :
    ¬e.state = goalBoard size ∧ ∀ pr ∈ get_neighbors size e.state,
      ∃ w, findCost σ.best_cost pr.1 = some w ∧ w ≤ v + 1 := by
  rcases hInv.closure e.state v hv with ⟨f, hf, hfs, hfl⟩ | hclosed
  · exfalso
    obtain ⟨_, hfprio, _⟩ := hInv.entries f hf
    obtain ⟨_, heprio, _⟩ :=
      hInv.entries e (sorted_head_mem σ.open_set e rest hsort)
    rcases sorted_head_le σ.open_set e rest hsort f hf with rfl | hle
    · omega
    · rw [hfs] at hfprio
      omega
  · exact hclosed

theorem foldl_relax_noop (size v : Nat) (epath : List Nat)
    (bc : List (Board × Nat)) (l : List (Board × Nat))
    (hall : ∀ nb ∈ l, ∃ w, findCost bc nb.1 = some w ∧ w ≤ v + 1) :
    ∀ (opn : List Entry) (ctr : Nat),
      l.foldl (relax size v epath) ⟨opn, ctr, bc⟩ = ⟨opn, ctr, bc⟩ := by
  induction l with
  | nil => intro opn ctr; rfl
  | cons nb tail ih =>
    intro opn ctr
    obtain ⟨w, hw, hge⟩ := hall nb (List.mem_cons_self _ _)
    rw [List.foldl_cons,
      relax_some_ge size v epath ⟨opn, ctr, bc⟩ nb w hw (by omega)]
    exact ih (fun x hx => hall x (List.mem_cons_of_mem nb hx)) opn ctr

/-- Expanding a stale pop changes nothing: the new state is exactly the
old one with the popped entry removed. -/
theorem stepFn_stale_eq (size : Nat) (grid : Board) (σ : SearchState)
    (hInv : SearchInv size grid σ) (e : Entry) (rest : List Entry)
    (hsort : sortByPriority σ.open_set = e :: rest)
    (hgoal : ¬e.state = goalBoard size) (v : Nat)
    (hv : findCost σ.best_cost e.state = some v)
    (hstale : v < e.path.length) :
    stepFn size σ = .next ⟨rest, σ.counter, σ.best_cost⟩ := by
  have hclosed :=
    (stale_closed size grid σ hInv e rest hsort v hv hstale).2
  unfold stepFn
  simp only [hsort, if_neg hgoal, hv, Option.getD_some]
  congr 1
  exact foldl_relax_noop size v e.path σ.best_cost (get_neighbors size e.state)
    hclosed rest σ.counter

/-- The invariant is preserved across a stale pop. -/
theorem searchInv_stale_next (size : Nat) (grid : Board) (σ : SearchState)
    (hInv : SearchInv size grid σ) (e : Entry) (rest : List Entry)
    (hsort : sortByPriority σ.open_set = e :: rest) (v : Nat)
    (hv : findCost σ.best_cost e.state = some v)
    (hstale : v < e.path.length) :
    SearchInv size grid ⟨rest, σ.counter, σ.best_cost⟩ := by
  have hstc := stale_closed size grid σ hInv e rest hsort v hv hstale
  have hrest_mem : ∀ f ∈ rest, f ∈ σ.open_set := by
    intro f hf
    refine mem_sortByPriority.mp ?_
    rw [hsort]
    exact List.mem_cons_of_mem e hf
  refine ⟨?_, hInv.keys, hInv.startKey, ?_⟩
  · intro f hf
    exact hInv.entries f (hrest_mem f hf)
  · intro s w hw
    by_cases hs : s = e.state
    · subst hs
      have hwv : w = v := by
        rw [hv] at hw
        exact Option.some_injective _ hw.symm
      subst hwv
      exact Or.inr hstc
    · rcases hInv.closure s w hw with ⟨f, hf, hfs, hfl⟩ | hclosed
      · left
        refine ⟨f, ?_, hfs, hfl⟩
        have hfsort := mem_sortByPriority.mpr hf
        rw [hsort] at hfsort
        rcases List.mem_cons.mp hfsort with rfl | hf2
        · exact absurd hfs.symm hs
        · exact hf2
      · exact Or.inr hclosed

/-! ## Fresh pops: processing one neighbor preserves the fold invariant -/

theorem foldInv_pushState (size : Nat) (grid estate : Board) (v : Nat)
    (epath : List Nat) (done : List (Board × Nat)) (acc : SearchState)
    (nb : Board × Nat)
    (hwf : WellFormed size grid)
    (hestp : estate.Perm grid)
    (hpath : applyMoves size grid epath = some estate)
    (hplen : epath.length = v)
    (hnb : nb ∈ get_neighbors size estate)
    (hFI : FoldInv size grid estate v done acc)
    (hcond : ∀ old, findCost acc.best_cost nb.1 = some old → v + 1 < old) :
    FoldInv size grid estate v (done ++ [nb])
      (pushState size v epath acc nb) := by
  have hwfe : WellFormed size estate := hwf.of_perm hestp
  have happly : applyMove size estate nb.2 = some nb.1 :=
    applyMove_of_mem hwfe hnb
  obtain ⟨j, _, _, _, _, _, _, hnbp⟩ := mem_get_neighbors_wf hwfe hnb
  have hnb1perm : nb.1.Perm grid := hnbp.trans hestp
  have hnewpath : applyMoves size grid (epath ++ [nb.2]) = some nb.1 := by
    rw [applyMoves_snoc, hpath, Option.some_bind]
    exact happly
  have hnewlen : (epath ++ [nb.2]).length = v + 1 := by
    simp [hplen]
  have hne : ¬nb.1 = estate := by
    intro he
    have h2 : findCost acc.best_cost nb.1 = some v := by
      rw [he]
      exact hFI.estateVal
    have := hcond v h2
    omega
  have hnegrid : ¬nb.1 = grid := by
    intro he
    have h2 : findCost acc.best_cost nb.1 = some 0 := by
      rw [he]
      exact hFI.startKey
    have := hcond 0 h2
    omega
  unfold pushState
  refine ⟨?_, ?_, ?_, ?_, ?_, ?_⟩
  · intro f hf
    rcases List.mem_append.mp hf with hf2 | hf2
    · obtain ⟨ha, hp, w, hw, hwle⟩ := hFI.entries f hf2
      refine ⟨ha, hp, ?_⟩
      by_cases hfs : nb.1 = f.state
      · have hw2 : findCost acc.best_cost nb.1 = some w := by
          rw [hfs]
          exact hw
        have hlt := hcond w hw2
        refine ⟨v + 1, ?_, by omega⟩
        rw [← hfs]
        exact findCost_update_self nb.1 (v + 1) acc.best_cost
      · refine ⟨w, ?_, hwle⟩
        rw [findCost_update_ne nb.1 (v + 1) acc.best_cost f.state hfs]
        exact hw
    · rcases List.mem_singleton.mp hf2 with rfl
      refine ⟨hnewpath, by simp [hplen], v + 1, ?_, by simp [hplen]⟩
      exact findCost_update_self nb.1 (v + 1) acc.best_cost
  · intro s w hw
    rcases findCost_update_cases nb.1 (v + 1) acc.best_cost s w hw with
      ⟨hs, hv2⟩ | ⟨hne2, hold⟩
    · subst hs
      subst hv2
      exact ⟨hnb1perm, epath ++ [nb.2], hnewlen, hnewpath⟩
    · exact hFI.keys s w hold
  · rw [findCost_update_ne nb.1 (v + 1) acc.best_cost grid hnegrid]
    exact hFI.startKey
  · intro s w hw
    rcases findCost_update_cases nb.1 (v + 1) acc.best_cost s w hw with
      ⟨hs, hv2⟩ | ⟨hne2, hold⟩
    · subst hs
      subst hv2
      left
      refine ⟨⟨v + 1 + heuristic size nb.1, acc.counter + 1, nb.1,
        epath ++ [nb.2]⟩, ?_, rfl, hnewlen⟩
      exact List.mem_append.mpr (Or.inr (List.mem_singleton.mpr rfl))
    · rcases hFI.closureExc s w hold with ⟨f, hf, hfs, hfl⟩ | ⟨hng, hcl⟩ |
        ⟨hse, hwv⟩
      · left
        exact ⟨f, List.mem_append.mpr (Or.inl hf), hfs, hfl⟩
      · right
        left
        refine ⟨hng, ?_⟩
        intro pr hpr
        obtain ⟨u, hu, hule⟩ := hcl pr hpr
        by_cases hpn : nb.1 = pr.1
        · have hu2 : findCost acc.best_cost nb.1 = some u := by
            rw [hpn]
            exact hu
          have := hcond u hu2
          refine ⟨v + 1, ?_, by omega⟩
          rw [← hpn]
          exact findCost_update_self nb.1 (v + 1) acc.best_cost
        · refine ⟨u, ?_, hule⟩
          rw [findCost_update_ne nb.1 (v + 1) acc.best_cost pr.1 hpn]
          exact hu
      · right
        right
        exact ⟨hse, hwv⟩
  · intro pr hpr
    rcases List.mem_append.mp hpr with hpr2 | hpr2
    · obtain ⟨u, hu, hule⟩ := hFI.partialClosure pr hpr2
      by_cases hpn : nb.1 = pr.1
      · refine ⟨v + 1, ?_, Nat.le_refl _⟩
        rw [← hpn]
        exact findCost_update_self nb.1 (v + 1) acc.best_cost
      · refine ⟨u, ?_, hule⟩
        rw [findCost_update_ne nb.1 (v + 1) acc.best_cost pr.1 hpn]
        exact hu
    · rcases List.mem_singleton.mp hpr2 with rfl
      refine ⟨v + 1, ?_, Nat.le_refl _⟩
      exact findCost_update_self _ (v + 1) acc.best_cost
  · rw [findCost_update_ne nb.1 (v + 1) acc.best_cost estate hne]
    exact hFI.estateVal

theorem foldInv_relax (size : Nat) (grid estate : Board) (v : Nat)
    (epath : List Nat) (done : List (Board × Nat)) (acc : SearchState)
    (nb : Board × Nat)
    (hwf : WellFormed size grid)
    (hestp : estate.Perm grid)
    (hpath : applyMoves size grid epath = some estate)
    (hplen : epath.length = v)
    (hnb : nb ∈ get_neighbors size estate)
    (hFI : FoldInv size grid estate v done acc) :
    FoldInv size grid estate v (done ++ [nb]) (relax size v epath acc nb) := by
  cases hfind : findCost acc.best_cost nb.1 with
  | some old =>
    by_cases hlt : v + 1 < old
    · rw [relax_some_lt size v epath acc nb old hfind hlt]
      refine foldInv_pushState size grid estate v epath done acc nb hwf hestp
        hpath hplen hnb hFI ?_
      intro u hu
      rw [hfind] at hu
      rcases Option.some_injective _ hu with rfl
      exact hlt
    · rw [relax_some_ge size v epath acc nb old hfind hlt]
      refine ⟨hFI.entries, hFI.keys, hFI.startKey, hFI.closureExc, ?_,
        hFI.estateVal⟩
      intro pr hpr
      rcases List.mem_append.mp hpr with hpr2 | hpr2
      · exact hFI.partialClosure pr hpr2
      · rcases List.mem_singleton.mp hpr2 with rfl
        exact ⟨old, hfind, by omega⟩
  | none =>
    rw [relax_none size v epath acc nb hfind]
    refine foldInv_pushState size grid estate v epath done acc nb hwf hestp
      hpath hplen hnb hFI ?_
    intro u hu
    rw [hfind] at hu
    exact absurd hu (by simp)

theorem foldInv_foldl (size : Nat) (grid estate : Board) (v : Nat)
    (epath : List Nat) (l : List (Board × Nat))
    (hwf : WellFormed size grid)
    (hestp : estate.Perm grid)
    (hpath : applyMoves size grid epath = some estate)
    (hplen : epath.length = v)
    (hl : ∀ nb ∈ l, nb ∈ get_neighbors size estate) :
    ∀ (done : List (Board × Nat)) (acc : SearchState),
      FoldInv size grid estate v done acc →
      FoldInv size grid estate v (done ++ l)
        (l.foldl (relax size v epath) acc) := by
  induction l with
  | nil =>
    intro done acc h
    simpa using h
  | cons nb tail ih =>
    intro done acc h
    have h1 := foldInv_relax size grid estate v epath done acc nb hwf hestp
      hpath hplen (hl nb (List.mem_cons_self _ _)) h
    have h2 := ih (fun x hx => hl x (List.mem_cons_of_mem nb hx))
      (done ++ [nb]) (relax size v epath acc nb) h1
    rw [List.foldl_cons]
    rw [List.append_assoc] at h2
    simpa using h2

/-- The invariant is preserved across a fresh (non-stale) pop. -/
theorem searchInv_fresh_next (size : Nat) (grid : Board) (σ : SearchState)
    (hwf : WellFormed size grid) (hInv : SearchInv size grid σ) (e : Entry)
    (rest : List Entry) (hsort : sortByPriority σ.open_set = e :: rest)
    (hgoal : ¬e.state = goalBoard size) (v : Nat)
    (hv : findCost σ.best_cost e.state = some v)
    (hlen : e.path.length = v) :
    SearchInv size grid ((get_neighbors size e.state).foldl
      (relax size v e.path) ⟨rest, σ.counter, σ.best_cost⟩) := by
  have hemem := sorted_head_mem σ.open_set e rest hsort
  obtain ⟨happly, _, _, _, _⟩ := hInv.entries e hemem
  have hestp : e.state.Perm grid := (hInv.keys e.state v hv).1
  have hrest_mem : ∀ f ∈ rest, f ∈ σ.open_set := by
    intro f hf
    refine mem_sortByPriority.mp ?_
    rw [hsort]
    exact List.mem_cons_of_mem e hf
  have hinit : FoldInv size grid e.state v [] ⟨rest, σ.counter, σ.best_cost⟩ := by
    refine ⟨?_, hInv.keys, hInv.startKey, ?_, ?_, hv⟩
    · intro f hf
      exact hInv.entries f (hrest_mem f hf)
    · intro s w hw
      rcases hInv.closure s w hw with ⟨f, hf, hfs, hfl⟩ | hclosed
      · have hfsort := mem_sortByPriority.mpr hf
        rw [hsort] at hfsort
        rcases List.mem_cons.mp hfsort with rfl | hf2
        · right
          right
          rw [hfs] at hv
          rw [← hfs]
          refine ⟨rfl, ?_⟩
          omega
        · left
          exact ⟨f, hf2, hfs, hfl⟩
      · right
        left
        exact hclosed
    · intro pr hpr
      simp at hpr
  have hfin := foldInv_foldl size grid e.state v e.path
    (get_neighbors size e.state) hwf hestp happly hlen
    (fun nb hnb => hnb) [] ⟨rest, σ.counter, σ.best_cost⟩ hinit
  refine ⟨hfin.entries, hfin.keys, hfin.startKey, ?_⟩
  intro s w hw
  rcases hfin.closureExc s w hw with ⟨f, hf, hfs, hfl⟩ | ⟨hng, hcl⟩ |
    ⟨hse, hwv⟩
  · exact Or.inl ⟨f, hf, hfs, hfl⟩
  · exact Or.inr ⟨hng, hcl⟩
  · subst hse
    subst hwv
    right
    refine ⟨hgoal, ?_⟩
    intro pr hpr
    exact hfin.partialClosure pr (by simpa using hpr)

/-- The invariant is preserved by every loop iteration. -/
theorem searchInv_step (size : Nat) (grid : Board) (σ σ' : SearchState)
    (hwf : WellFormed size grid) (hInv : SearchInv size grid σ)
    (hstep : stepFn size σ = .next σ') : SearchInv size grid σ' := by
  obtain ⟨e, rest, hsort, hgoal, rfl⟩ := stepFn_next_elim hstep
  have hemem := sorted_head_mem σ.open_set e rest hsort
  obtain ⟨happly, hprio, v, hv, hvle⟩ := hInv.entries e hemem
  rw [hv]
  simp only [Option.getD_some]
  rcases Nat.lt_or_ge v e.path.length with hstale | hge
  · rw [foldl_relax_noop size v e.path σ.best_cost (get_neighbors size e.state)
      (stale_closed size grid σ hInv e rest hsort v hv hstale).2 rest σ.counter]
    exact searchInv_stale_next size grid σ hInv e rest hsort v hv hstale
  · exact searchInv_fresh_next size grid σ hwf hInv e rest hsort hgoal v hv
      (by omega)

theorem searchInv_iterate (size : Nat) (grid : Board) (n : Nat)
    (σ σ' : SearchState) (hwf : WellFormed size grid)
    (hInv : SearchInv size grid σ) (hiter : iterateLoop size n σ = some σ') :
    SearchInv size grid σ' := by
  induction n generalizing σ with
  | zero =>
    rw [iterateLoop] at hiter
    cases hiter
    exact hInv
  | succ n ih =>
    rw [iterateLoop] at hiter
    cases hstep : stepFn size σ with
    | next σ1 =>
      rw [hstep] at hiter
      exact ih σ1 (searchInv_step size grid σ σ1 hwf hInv hstep) hiter
    | solved p => rw [hstep] at hiter; exact absurd hiter (by simp)
    | exhausted => rw [hstep] at hiter; exact absurd hiter (by simp)

/-! ## Per-key monotonicity of the best-cost dict (claim C7, part 2) -/

theorem relax_best_monotone (size cc : Nat) (path : List Nat)
    (acc : SearchState) (nb : Board × Nat) (s : Board) (v : Nat)
    (hv : findCost acc.best_cost s = some v) :
    ∃ v', findCost (relax size cc path acc nb).best_cost s = some v' ∧
      v' ≤ v := by
  cases hfind : findCost acc.best_cost nb.1 with
  | some old =>
    by_cases hlt : cc + 1 < old
    · rw [relax_some_lt size cc path acc nb old hfind hlt]
      unfold pushState
      by_cases hs : nb.1 = s
      · subst hs
        rw [hfind] at hv
        rcases Option.some_injective _ hv with rfl
        exact ⟨cc + 1, findCost_update_self _ _ _, by omega⟩
      · refine ⟨v, ?_, Nat.le_refl _⟩
        rw [findCost_update_ne nb.1 (cc + 1) acc.best_cost s hs]
        exact hv
    · rw [relax_some_ge size cc path acc nb old hfind hlt]
      exact ⟨v, hv, Nat.le_refl _⟩
  | none =>
    rw [relax_none size cc path acc nb hfind]
    unfold pushState
    by_cases hs : nb.1 = s
    · subst hs
      rw [hfind] at hv
      exact absurd hv (by simp)
    · refine ⟨v, ?_, Nat.le_refl _⟩
      rw [findCost_update_ne nb.1 (cc + 1) acc.best_cost s hs]
      exact hv

theorem foldl_relax_best_monotone (size cc : Nat) (path : List Nat)
    (l : List (Board × Nat)) :
    ∀ (acc : SearchState) (s : Board) (v : Nat),
      findCost acc.best_cost s = some v →
      ∃ v', findCost (l.foldl (relax size cc path) acc).best_cost s =
        some v' ∧ v' ≤ v := by
  induction l with
  | nil => exact fun acc s v hv => ⟨v, hv, Nat.le_refl _⟩
  | cons nb tail ih =>
    intro acc s v hv
    obtain ⟨v1, hv1, hle1⟩ := relax_best_monotone size cc path acc nb s v hv
    obtain ⟨v2, hv2, hle2⟩ := ih (relax size cc path acc nb) s v1 hv1
    exact ⟨v2, hv2, by omega⟩

theorem step_best_monotone (size : Nat) (σ σ' : SearchState)
    (hstep : stepFn size σ = .next σ') (s : Board) (v : Nat)
    (hv : findCost σ.best_cost s = some v) :
    ∃ v', findCost σ'.best_cost s = some v' ∧ v' ≤ v := by
  obtain ⟨e, rest, hsort, hgoal, rfl⟩ := stepFn_next_elim hstep
  exact foldl_relax_best_monotone size _ e.path (get_neighbors size e.state)
    ⟨rest, σ.counter, σ.best_cost⟩ s v hv

theorem iterate_best_monotone (size : Nat) (m : Nat) :
    ∀ (σ σ'' : SearchState), iterateLoop size m σ = some σ'' →
      ∀ (s : Board) (v : Nat), findCost σ.best_cost s = some v →
      ∃ v', findCost σ''.best_cost s = some v' ∧ v' ≤ v := by
  induction m with
  | zero =>
    intro σ σ'' hiter s v hv
    rw [iterateLoop] at hiter
    cases hiter
    exact ⟨v, hv, Nat.le_refl _⟩
  | succ m ih =>
    intro σ σ'' hiter s v hv
    rw [iterateLoop] at hiter
    cases hstep : stepFn size σ with
    | next σ1 =>
      rw [hstep] at hiter
      obtain ⟨v1, hv1, hle1⟩ := step_best_monotone size σ σ1 hstep s v hv
      obtain ⟨v2, hv2, hle2⟩ := ih σ1 σ'' hiter s v1 hv1
      exact ⟨v2, hv2, by omega⟩
    | solved p => rw [hstep] at hiter; exact absurd hiter (by simp)
    | exhausted => rw [hstep] at hiter; exact absurd hiter (by simp)

/-! ## Entries inserted by an expansion match the recorded cost
(claim C7, part 1) -/

theorem foldl_relax_freshVal (size v : Nat) (epath : List Nat)
    (hplen : epath.length = v) (l : List (Board × Nat)) :
    ∀ (acc : SearchState) (base : List Entry),
      (∀ f ∈ acc.open_set, f ∈ base ∨
        (findCost acc.best_cost f.state = some f.path.length ∧
          f.path.length = v + 1)) →
      ∀ f ∈ (l.foldl (relax size v epath) acc).open_set, f ∈ base ∨
        (findCost (l.foldl (relax size v epath) acc).best_cost f.state =
          some f.path.length ∧ f.path.length = v + 1) := by
  induction l with
  | nil => exact fun acc base h => h
  | cons nb tail ih =>
    intro acc base h
    rw [List.foldl_cons]
    apply ih
    intro f hf
    cases hfind : findCost acc.best_cost nb.1 with
    | some old =>
      by_cases hlt : v + 1 < old
      · rw [relax_some_lt size v epath acc nb old hfind hlt] at hf ⊢
        unfold pushState at hf ⊢
        rcases List.mem_append.mp hf with hf2 | hf2
        · rcases h f hf2 with hb | ⟨hval, hlen⟩
          · exact Or.inl hb
          · right
            refine ⟨?_, hlen⟩
            by_cases hs : nb.1 = f.state
            · rw [hs] at hfind
              rw [hfind] at hval
              rcases Option.some_injective _ hval with heq
              omega
            · rw [findCost_update_ne nb.1 (v + 1) acc.best_cost f.state hs]
              exact hval
        · rcases List.mem_singleton.mp hf2 with rfl
          right
          constructor
          · have : (epath ++ [nb.2]).length = v + 1 := by simp [hplen]
            rw [this]
            exact findCost_update_self _ _ _
          · simp [hplen]
      · rw [relax_some_ge size v epath acc nb old hfind hlt] at hf ⊢
        exact h f hf
    | none =>
      rw [relax_none size v epath acc nb hfind] at hf ⊢
      unfold pushState at hf ⊢
      rcases List.mem_append.mp hf with hf2 | hf2
      · rcases h f hf2 with hb | ⟨hval, hlen⟩
        · exact Or.inl hb
        · right
          refine ⟨?_, hlen⟩
          by_cases hs : nb.1 = f.state
          · rw [hs] at hfind
            rw [hfind] at hval
            exact absurd hval (by simp)
          · rw [findCost_update_ne nb.1 (v + 1) acc.best_cost f.state hs]
            exact hval
      · rcases List.mem_singleton.mp hf2 with rfl
        right
        constructor
        · have : (epath ++ [nb.2]).length = v + 1 := by simp [hplen]
          rw [this]
          exact findCost_update_self _ _ _
        · simp [hplen]

/-! ## Claim C7: inserted entries match the recorded g-cost; recorded
costs only decrease -/

/-- C7: across any iteration of the search on a well-formed board, (1)
every frontier entry of the new state either was already in the frontier or
was inserted during this expansion with its path length equal to the
g-cost recorded for its board (the recorded costs are not touched again
during the expansion, so the end-of-step table shows the insertion-time
value), and (2) per key the best-cost table's value only ever decreases
over any number of further iterations. -/
theorem inserted_matches_cost_and_monotone (size : Nat) (grid : List Nat)
    (n : Nat) (σ σ' : SearchState) (hwf : WellFormed size grid)
    (hiter : iterateLoop size n (initState size grid) = some σ)
    (hstep : stepFn size σ = .next σ') :
    (∀ f ∈ σ'.open_set, f ∈ σ.open_set ∨
      findCost σ'.best_cost f.state = some f.path.length) ∧
    (∀ (m : Nat) (σ'' : SearchState), iterateLoop size m σ' = some σ'' →
      ∀ (s : Board) (v : Nat), findCost σ'.best_cost s = some v →
      ∃ v', findCost σ''.best_cost s = some v' ∧ v' ≤ v) := by
  have hInv := searchInv_iterate size grid n _ σ hwf
    (searchInv_init size grid) hiter
  constructor
  · obtain ⟨e, rest, hsort, hgoal, rfl⟩ := stepFn_next_elim hstep
    have hemem := sorted_head_mem σ.open_set e rest hsort
    obtain ⟨happly, hprio, v, hv, hvle⟩ := hInv.entries e hemem
    have hrest_mem : ∀ f ∈ rest, f ∈ σ.open_set := by
      intro f hf
      refine mem_sortByPriority.mp ?_
      rw [hsort]
      exact List.mem_cons_of_mem e hf
    rw [hv]
    simp only [Option.getD_some]
    rcases Nat.lt_or_ge v e.path.length with hstale | hge
    · rw [foldl_relax_noop size v e.path σ.best_cost
        (get_neighbors size e.state)
        (stale_closed size grid σ hInv e rest hsort v hv hstale).2
        rest σ.counter]
      intro f hf
      exact Or.inl (hrest_mem f hf)
    · have hplen : e.path.length = v := by omega
      intro f hf
      rcases foldl_relax_freshVal size v e.path hplen
        (get_neighbors size e.state) ⟨rest, σ.counter, σ.best_cost⟩
        σ.open_set
        (fun g hg => Or.inl (hrest_mem g hg)) f hf with hb | ⟨hval, _⟩
      · exact Or.inl hb
      · exact Or.inr hval
  · intro m σ'' hiter2 s v hv
    exact iterate_best_monotone size m σ' σ'' hiter2 s v hv

/-- C7 witness: the first expansion from the board `[1, 0, 2, 3]` inserts
the entry for the goal board with path `[1]` of length 1, which equals its
recorded cost; costs never increase over further iterations. -/
theorem inserted_matches_cost_and_monotone_witness :
    ((⟨1, 2, [0, 1, 2, 3], [1]⟩ : Entry) ∈
        (initState 2 [1, 0, 2, 3]).open_set ∨
      findCost [([0, 1, 2, 3], 1), ([1, 3, 2, 0], 1), ([1, 0, 2, 3], 0)]
        [0, 1, 2, 3] = some [1].length) ∧
    (∃ v', findCost
        (⟨[⟨3, 1, [1, 3, 2, 0], [3]⟩, ⟨1, 2, [0, 1, 2, 3], [1]⟩], 2,
          [([0, 1, 2, 3], 1), ([1, 3, 2, 0], 1), ([1, 0, 2, 3], 0)]⟩ :
            SearchState).best_cost [1, 0, 2, 3] = some v' ∧ v' ≤ 0) := by
  have h := inserted_matches_cost_and_monotone 2 [1, 0, 2, 3] 0
    (initState 2 [1, 0, 2, 3])
    ⟨[⟨3, 1, [1, 3, 2, 0], [3]⟩, ⟨1, 2, [0, 1, 2, 3], [1]⟩], 2,
      [([0, 1, 2, 3], 1), ([1, 3, 2, 0], 1), ([1, 0, 2, 3], 0)]⟩
    (by constructor <;> decide) rfl (by decide)
  exact ⟨h.1 ⟨1, 2, [0, 1, 2, 3], [1]⟩ (by decide),
    h.2 0 _ rfl [1, 0, 2, 3] 0 (by decide)⟩

/-! ## Claim C10: a stale pop expands to nothing -/

/-- C10: whenever a stale entry is popped — its stored path strictly longer
than its board's recorded cost, which is re-read from the best-cost dict at
pop time — the expansion changes nothing: the step keeps the best-cost
dict and the counter and merely removes the popped entry from the
frontier. -/
theorem stale_pop_no_change (size : Nat) (grid : List Nat) (n : Nat)
    (σ : SearchState) (hwf : WellFormed size grid)
    (hiter : iterateLoop size n (initState size grid) = some σ)
    (e : Entry) (rest : List Entry)
    (hsort : sortByPriority σ.open_set = e :: rest)
    (hgoal : ¬e.state = goalBoard size) (v : Nat)
    (hv : findCost σ.best_cost e.state = some v)
    (hstale : v < e.path.length) :
    stepFn size σ = .next ⟨rest, σ.counter, σ.best_cost⟩ :=
  stepFn_stale_eq size grid σ
    (searchInv_iterate size grid n _ σ hwf (searchInv_init size grid) hiter)
    e rest hsort hgoal v hv hstale

/-- C10 witness: at the reachable state `staleSigma` the popped entry is
stale (recorded cost 5, stored path length 7), and the step only removes
it: same best-cost dict, same counter, frontier = the sorted tail. -/
theorem stale_pop_no_change_witness :
    stepFn 3 staleSigma =
      .next ⟨staleRest, staleSigma.counter, staleSigma.best_cost⟩ :=
  stale_pop_no_change 3 [5, 4, 0, 3, 2, 1, 6, 7, 8] 28 staleSigma
    (by constructor <;> decide) (by decide) staleHead staleRest
    (by decide) (by decide) 5 (by decide) (by decide)

/-! ## The cover lemma: while a solution exists, the frontier holds an
entry whose priority is at most any solution's length -/

theorem cover (size : Nat) (grid : Board) (σ : SearchState)
    (hwf : WellFormed size grid) (hInv : SearchInv size grid σ) :
    ∀ (p : List Nat) (s : Board) (v : Nat),
      findCost σ.best_cost s = some v →
      applyMoves size s p = some (goalBoard size) →
      ∃ e ∈ σ.open_set, e.priority ≤ v + p.length := by
  intro p
  induction p with
  | nil =>
    intro s v hv hp
    have hs : s = goalBoard size := Option.some_injective _ hp
    rcases hInv.closure s v hv with ⟨e, he, hes, hel⟩ | ⟨hng, _⟩
    · obtain ⟨_, hprio, _⟩ := hInv.entries e he
      refine ⟨e, he, ?_⟩
      rw [hprio, hes, hel, hs, heuristic_goalBoard]
      simp
    · exact absurd hs hng
  | cons m ms ih =>
    intro s v hv hp
    rcases hInv.closure s v hv with ⟨e, he, hes, hel⟩ | ⟨hng, hcl⟩
    · obtain ⟨_, hprio, _⟩ := hInv.entries e he
      have hsp : s.Perm grid := (hInv.keys s v hv).1
      have hwfs : WellFormed size s := hwf.of_perm hsp
      have hadm : heuristic size s ≤ (m :: ms).length :=
        heuristic_admissible _ hwfs hp
      refine ⟨e, he, ?_⟩
      rw [hprio, hes, hel]
      simp only [List.length_cons] at hadm ⊢
      omega
    · unfold applyMoves at hp
      cases happ : applyMove size s m with
      | none => rw [happ] at hp; exact absurd hp (by simp)
      | some n =>
        rw [happ] at hp
        have hmem := applyMove_mem happ
        obtain ⟨w, hw, hwle⟩ := hcl (n, m) hmem
        obtain ⟨e, he, hep⟩ := ih n w hw hp
        refine ⟨e, he, ?_⟩
        simp only [List.length_cons]
        omega

/-- When the goal is popped its path solves the board and no solution is
shorter. -/
theorem solved_optimal (size : Nat) (grid : Board) (σ : SearchState)
    (p : List Nat) (hwf : WellFormed size grid)
    (hInv : SearchInv size grid σ) (hstep : stepFn size σ = .solved p) :
    applyMoves size grid p = some (goalBoard size) ∧
      ∀ q, applyMoves size grid q = some (goalBoard size) →
        p.length ≤ q.length := by
  obtain ⟨e, rest, hsort, hgoal, rfl⟩ := stepFn_solved_elim hstep
  have hemem := sorted_head_mem σ.open_set e rest hsort
  obtain ⟨happly, hprio, v, hv, hvle⟩ := hInv.entries e hemem
  rw [hgoal] at happly
  refine ⟨happly, ?_⟩
  intro q hq
  have hfresh : e.path.length = v := by
    rcases Nat.lt_or_ge v e.path.length with hstale | hge
    · exfalso
      rcases hInv.closure e.state v hv with ⟨f, hf, hfs, hfl⟩ | ⟨hng, _⟩
      · obtain ⟨_, hfprio, _⟩ := hInv.entries f hf
        rcases sorted_head_le σ.open_set e rest hsort f hf with rfl | hle
        · omega
        · rw [hfs] at hfprio
          omega
      · exact hng hgoal
    · omega
  obtain ⟨f, hf, hfp⟩ := cover size grid σ hwf hInv q grid 0 hInv.startKey hq
  rw [hgoal, heuristic_goalBoard] at hprio
  rcases sorted_head_le σ.open_set e rest hsort f hf with rfl | hle
  · omega
  · omega

/-- While a solution exists the frontier cannot be empty. -/
theorem not_exhausted_of_solvable (size : Nat) (grid : Board)
    (σ : SearchState) (hwf : WellFormed size grid)
    (hInv : SearchInv size grid σ)
    (hsolv : ∃ q, applyMoves size grid q = some (goalBoard size)) :
    ¬stepFn size σ = .exhausted := by
  intro hstep
  obtain ⟨q, hq⟩ := hsolv
  obtain ⟨f, hf, _⟩ := cover size grid σ hwf hInv q grid 0 hInv.startKey hq
  rw [stepFn_exhausted_elim hstep] at hf
  simp at hf

/-- Any result of the loop from an invariant state is a real solution or
the empty list. -/
theorem solveLoop_sound (size : Nat) (grid : Board) :
    ∀ (fuel : Nat) (σ : SearchState) (r : List Nat),
      SearchInv size grid σ → WellFormed size grid →
      solveLoop size fuel σ = some r →
      applyMoves size grid r = some (goalBoard size) ∨ r = [] := by
  intro fuel
  induction fuel with
  | zero =>
    intro σ r _ _ hrun
    rw [solveLoop] at hrun
    exact absurd hrun (by simp)
  | succ fuel ih =>
    intro σ r hInv hwf hrun
    rw [solveLoop] at hrun
    cases hstep : stepFn size σ with
    | solved p =>
      rw [hstep] at hrun
      rcases Option.some_injective _ hrun with rfl
      obtain ⟨e, rest, hsort, hgoal, rfl⟩ := stepFn_solved_elim hstep
      obtain ⟨happly, _, _, _, _⟩ :=
        hInv.entries e (sorted_head_mem σ.open_set e rest hsort)
      rw [hgoal] at happly
      exact Or.inl happly
    | exhausted =>
      rw [hstep] at hrun
      rcases Option.some_injective _ hrun with rfl
      exact Or.inr rfl
    | next σ1 =>
      rw [hstep] at hrun
      exact ih σ1 r (searchInv_step size grid σ σ1 hwf hInv hstep) hwf hrun

/-- On a solvable well-formed instance, any result of the loop is an
optimal solution. -/
theorem solveLoop_correct (size : Nat) (grid : Board)
    (hwf : WellFormed size grid)
    (hsolv : ∃ q, applyMoves size grid q = some (goalBoard size)) :
    ∀ (fuel : Nat) (σ : SearchState) (r : List Nat),
      SearchInv size grid σ → solveLoop size fuel σ = some r →
      applyMoves size grid r = some (goalBoard size) ∧
        ∀ q, applyMoves size grid q = some (goalBoard size) →
          r.length ≤ q.length := by
  intro fuel
  induction fuel with
  | zero =>
    intro σ r _ hrun
    rw [solveLoop] at hrun
    exact absurd hrun (by simp)
  | succ fuel ih =>
    intro σ r hInv hrun
    rw [solveLoop] at hrun
    cases hstep : stepFn size σ with
    | solved p =>
      rw [hstep] at hrun
      rcases Option.some_injective _ hrun with rfl
      exact solved_optimal size grid σ _ hwf hInv hstep
    | exhausted =>
      exact absurd hstep (not_exhausted_of_solvable size grid σ hwf hInv hsolv)
    | next σ1 =>
      rw [hstep] at hrun
      exact ih σ1 r (searchInv_step size grid σ σ1 hwf hInv hstep) hrun

/-! ## Claims C1 and C2: the returned move list is a shortest solution -/

/-- C1: for every solvable well-formed board, whenever the solver completes
(with any sufficient fuel), the returned move list solves the board and its
length is minimal among all solving move lists — i.e. it equals the true
shortest-path distance to the goal board. -/
theorem solveSlider_optimal (size : Nat) (grid : List Nat) (fuel : Nat)
    (r : List Nat) (hwf : WellFormed size grid) (hsolv : Solvable size grid)
    (hrun : solveSliderFuel size grid fuel = some r) :
    applyMoves size grid r = some (goalBoard size) ∧
      ∀ q, applyMoves size grid q = some (goalBoard size) →
        r.length ≤ q.length := by
  unfold solveSliderFuel at hrun
  by_cases hg : grid = goalBoard size
  · rw [if_pos hg] at hrun
    rcases Option.some_injective _ hrun with rfl
    constructor
    · rw [applyMoves, hg]
    · intro q _
      exact Nat.zero_le _
  · rw [if_neg hg] at hrun
    exact solveLoop_correct size grid hwf hsolv fuel (initState size grid) r
      (searchInv_init size grid) hrun

/-- C1 witness: on the 2×2 board `[1, 0, 2, 3]` the solver returns `[1]`,
which solves the board and is no longer than the solution `[1]`. -/
theorem solveSlider_optimal_witness :
    applyMoves 2 [1, 0, 2, 3] [1] = some (goalBoard 2) ∧
      [1].length ≤ [1].length := by
  have h := solveSlider_optimal 2 [1, 0, 2, 3] 10 [1]
    (by constructor <;> decide) ⟨[1], by decide⟩ (by decide)
  exact ⟨h.1, h.2 [1] (by decide)⟩

/-- C2: for every solvable well-formed board, whenever the solver completes,
applying the returned moves in order (each move slides the named tile into
the current blank position) yields exactly the goal board. -/
theorem solveSlider_valid (size : Nat) (grid : List Nat) (fuel : Nat)
    (r : List Nat) (hwf : WellFormed size grid) (hsolv : Solvable size grid)
    (hrun : solveSliderFuel size grid fuel = some r) :
    applyMoves size grid r = some (goalBoard size) := by
  unfold solveSliderFuel at hrun
  by_cases hg : grid = goalBoard size
  · rw [if_pos hg] at hrun
    rcases Option.some_injective _ hrun with rfl
    rw [applyMoves, hg]
  · rw [if_neg hg] at hrun
    exact (solveLoop_correct size grid hwf hsolv fuel (initState size grid) r
      (searchInv_init size grid) hrun).1

/-- C2 witness: the returned moves `[1]` for the board `[1, 0, 2, 3]`
reach the goal `[0, 1, 2, 3]`. -/
theorem solveSlider_valid_witness :
    applyMoves 2 [1, 0, 2, 3] [1] = some (goalBoard 2) :=
  solveSlider_valid 2 [1, 0, 2, 3] 10 [1] (by constructor <;> decide)
    ⟨[1], by decide⟩ (by decide)

/-! ## Termination: a two-component measure decreases every iteration -/

theorem mem_permsOf (grid b : Board) : b ∈ permsOf grid ↔ b.Perm grid := by
  rw [permsOf, List.mem_toFinset]
  exact List.mem_permutations

theorem unvisited_update_of_some (grid : Board) (bc : List (Board × Nat))
    (k : Board) (v old : Nat) (hfind : findCost bc k = some old) :
    unvisitedCount grid ((k, v) :: bc) = unvisitedCount grid bc := by
  unfold unvisitedCount
  congr 1
  apply Finset.filter_congr
  intro b _
  by_cases hk : k = b
  · subst hk
    rw [findCost_update_self, hfind]
    simp
  · rw [findCost_update_ne k v bc b hk]

theorem unvisited_update_of_none (grid : Board) (bc : List (Board × Nat))
    (k : Board) (v : Nat) (hmem : k ∈ permsOf grid)
    (hfind : findCost bc k = none) :
    unvisitedCount grid ((k, v) :: bc) < unvisitedCount grid bc := by
  unfold unvisitedCount
  apply Finset.card_lt_card
  have hsub : (permsOf grid).filter (fun b => findCost ((k, v) :: bc) b = none)
      ⊆ (permsOf grid).filter fun b => findCost bc b = none := by
    intro b hb
    rw [Finset.mem_filter] at hb ⊢
    refine ⟨hb.1, ?_⟩
    by_cases hk : k = b
    · subst hk
      rw [findCost_update_self] at hb
      exact absurd hb.2 (by simp)
    · rw [findCost_update_ne k v bc b hk] at hb
      exact hb.2
  refine (Finset.ssubset_iff_of_subset hsub).mpr ⟨k, ?_, ?_⟩
  · rw [Finset.mem_filter]
    exact ⟨hmem, hfind⟩
  · rw [Finset.mem_filter]
    intro hcon
    rw [findCost_update_self] at hcon
    exact absurd hcon.2 (by simp)

theorem costSum_update_lt (grid : Board) (bc : List (Board × Nat))
    (k : Board) (v old : Nat) (hmem : k ∈ permsOf grid)
    (hfind : findCost bc k = some old) (hlt : v < old) :
    costSum grid ((k, v) :: bc) < costSum grid bc := by
  unfold costSum
  rw [← Finset.add_sum_erase _ _ hmem,
    ← Finset.add_sum_erase _
      (fun b => (findCost bc b).getD 0) hmem]
  have hoth : ∀ b ∈ (permsOf grid).erase k,
      (findCost ((k, v) :: bc) b).getD 0 = (findCost bc b).getD 0 := by
    intro b hb
    rw [findCost_update_ne k v bc b (Ne.symm (Finset.mem_erase.mp hb).1)]
  rw [Finset.sum_congr rfl hoth, findCost_update_self, hfind]
  simp only [Option.getD_some]
  omega

/-- Processing one neighbor weakly decreases the measure
(lexicographically). -/
theorem relax_measure (size cc : Nat) (path : List Nat) (grid : Board)
    (acc : SearchState) (nb : Board × Nat) (hp : nb.1.Perm grid) :
    unvisitedCount grid (relax size cc path acc nb).best_cost <
        unvisitedCount grid acc.best_cost ∨
      (unvisitedCount grid (relax size cc path acc nb).best_cost =
          unvisitedCount grid acc.best_cost ∧
        costSum grid (relax size cc path acc nb).best_cost +
            (relax size cc path acc nb).open_set.length ≤
          costSum grid acc.best_cost + acc.open_set.length) := by
  have hmem : nb.1 ∈ permsOf grid := (mem_permsOf grid nb.1).mpr hp
  cases hfind : findCost acc.best_cost nb.1 with
  | some old =>
    by_cases hlt : cc + 1 < old
    · rw [relax_some_lt size cc path acc nb old hfind hlt]
      right
      unfold pushState
      constructor
      · exact unvisited_update_of_some grid acc.best_cost nb.1 (cc + 1) old
          hfind
      · have hsum := costSum_update_lt grid acc.best_cost nb.1 (cc + 1) old
          hmem hfind hlt
        simp only [List.length_append, List.length_cons, List.length_nil]
        omega
    · rw [relax_some_ge size cc path acc nb old hfind hlt]
      exact Or.inr ⟨rfl, Nat.le_refl _⟩
  | none =>
    rw [relax_none size cc path acc nb hfind]
    left
    unfold pushState
    exact unvisited_update_of_none grid acc.best_cost nb.1 (cc + 1) hmem hfind

theorem foldl_relax_measure (size cc : Nat) (path : List Nat) (grid : Board)
    (l : List (Board × Nat)) (hl : ∀ nb ∈ l, nb.1.Perm grid) :
    ∀ acc : SearchState,
      unvisitedCount grid (l.foldl (relax size cc path) acc).best_cost <
          unvisitedCount grid acc.best_cost ∨
        (unvisitedCount grid (l.foldl (relax size cc path) acc).best_cost =
            unvisitedCount grid acc.best_cost ∧
          costSum grid (l.foldl (relax size cc path) acc).best_cost +
              (l.foldl (relax size cc path) acc).open_set.length ≤
            costSum grid acc.best_cost + acc.open_set.length) := by
  induction l with
  | nil => exact fun acc => Or.inr ⟨rfl, Nat.le_refl _⟩
  | cons nb tail ih =>
    intro acc
    rw [List.foldl_cons]
    have h1 := relax_measure size cc path grid acc nb
      (hl nb (List.mem_cons_self _ _))
    have h2 := ih (fun x hx => hl x (List.mem_cons_of_mem nb hx))
      (relax size cc path acc nb)
    rcases h1 with h1 | ⟨h1e, h1le⟩ <;> rcases h2 with h2 | ⟨h2e, h2le⟩
    · exact Or.inl (by omega)
    · exact Or.inl (by omega)
    · exact Or.inl (by omega)
    · exact Or.inr ⟨by omega, by omega⟩

/-- Every `.next` iteration strictly decreases the measure. -/
theorem step_measure (size : Nat) (grid : Board) (σ σ' : SearchState)
    (hwf : WellFormed size grid) (hInv : SearchInv size grid σ)
    (hstep : stepFn size σ = .next σ') :
    unvisitedCount grid σ'.best_cost < unvisitedCount grid σ.best_cost ∨
      (unvisitedCount grid σ'.best_cost = unvisitedCount grid σ.best_cost ∧
        costSum grid σ'.best_cost + σ'.open_set.length <
          costSum grid σ.best_cost + σ.open_set.length) := by
  obtain ⟨e, rest, hsort, hgoal, rfl⟩ := stepFn_next_elim hstep
  have hemem := sorted_head_mem σ.open_set e rest hsort
  obtain ⟨_, _, v, hv, _⟩ := hInv.entries e hemem
  have hestp : e.state.Perm grid := (hInv.keys e.state v hv).1
  have hwfe : WellFormed size e.state := hwf.of_perm hestp
  have hnb : ∀ nb ∈ get_neighbors size e.state, nb.1.Perm grid := by
    intro nb hnbm
    obtain ⟨j, _, _, _, _, _, _, hnbp⟩ := mem_get_neighbors_wf hwfe hnbm
    exact hnbp.trans hestp
  have hrestlen : rest.length + 1 = σ.open_set.length := by
    have := (sortByPriority_perm σ.open_set).length_eq
    rw [hsort] at this
    simpa using this
  have hfold := foldl_relax_measure size
    ((findCost σ.best_cost e.state).getD 0) e.path grid
    (get_neighbors size e.state) hnb ⟨rest, σ.counter, σ.best_cost⟩
  rcases hfold with h | ⟨he, hle⟩
  · exact Or.inl h
  · right
    refine ⟨he, ?_⟩
    simp only at hle
    omega

/-- An empty frontier makes the next step `exhausted`. -/
theorem stepFn_empty (size : Nat) (σ : SearchState)
    (h : σ.open_set = []) : stepFn size σ = .exhausted := by
  unfold stepFn
  rw [h]
  rfl

theorem solveLoop_mono (size : Nat) :
    ∀ (fuel fuel2 : Nat) (σ : SearchState) (r : List Nat), fuel ≤ fuel2 →
      solveLoop size fuel σ = some r → solveLoop size fuel2 σ = some r := by
  intro fuel
  induction fuel with
  | zero =>
    intro fuel2 σ r _ hrun
    rw [solveLoop] at hrun
    exact absurd hrun (by simp)
  | succ fuel ih =>
    intro fuel2 σ r hle hrun
    obtain ⟨f2, rfl⟩ : ∃ f2, fuel2 = f2 + 1 := ⟨fuel2 - 1, by omega⟩
    rw [solveLoop] at hrun ⊢
    cases hstep : stepFn size σ with
    | solved p => rw [hstep] at hrun; exact hrun
    | exhausted => rw [hstep] at hrun; exact hrun
    | next σ1 => rw [hstep] at hrun; exact ih f2 σ1 r (by omega) hrun

/-- Enough fuel always exists: double induction on the measure. -/
theorem solveLoop_hasFuel (size : Nat) (grid : Board)
    (hwf : WellFormed size grid) :
    ∀ (u m : Nat) (σ : SearchState), SearchInv size grid σ →
      unvisitedCount grid σ.best_cost ≤ u →
      costSum grid σ.best_cost + σ.open_set.length ≤ m →
      ∃ fuel, (solveLoop size fuel σ).isSome := by
  intro u
  induction u with
  | zero =>
    intro m
    induction m with
    | zero =>
      intro σ _ _ hm
      have hopen : σ.open_set = [] := List.length_eq_zero.mp (by omega)
      exact ⟨1, by rw [solveLoop, stepFn_empty size σ hopen]; rfl⟩
    | succ m ihm =>
      intro σ hInv hu hm
      cases hstep : stepFn size σ with
      | solved p => exact ⟨1, by rw [solveLoop, hstep]; rfl⟩
      | exhausted => exact ⟨1, by rw [solveLoop, hstep]; rfl⟩
      | next σ1 =>
        have hmeas := step_measure size grid σ σ1 hwf hInv hstep
        have hInv1 := searchInv_step size grid σ σ1 hwf hInv hstep
        rcases hmeas with hlt | ⟨heq, hlt2⟩
        · exact absurd hlt (by omega)
        · obtain ⟨fuel, hfuel⟩ := ihm σ1 hInv1 (by omega) (by omega)
          exact ⟨fuel + 1, by rw [solveLoop, hstep]; exact hfuel⟩
  | succ u ihu =>
    intro m
    induction m with
    | zero =>
      intro σ _ _ hm
      have hopen : σ.open_set = [] := List.length_eq_zero.mp (by omega)
      exact ⟨1, by rw [solveLoop, stepFn_empty size σ hopen]; rfl⟩
    | succ m ihm =>
      intro σ hInv hu hm
      cases hstep : stepFn size σ with
      | solved p => exact ⟨1, by rw [solveLoop, hstep]; rfl⟩
      | exhausted => exact ⟨1, by rw [solveLoop, hstep]; rfl⟩
      | next σ1 =>
        have hmeas := step_measure size grid σ σ1 hwf hInv hstep
        have hInv1 := searchInv_step size grid σ σ1 hwf hInv hstep
        rcases hmeas with hlt | ⟨heq, hlt2⟩
        · obtain ⟨fuel, hfuel⟩ := ihu
            (costSum grid σ1.best_cost + σ1.open_set.length) σ1 hInv1
            (by omega) (Nat.le_refl _)
          exact ⟨fuel + 1, by rw [solveLoop, hstep]; exact hfuel⟩
        · obtain ⟨fuel, hfuel⟩ := ihm σ1 hInv1 (by omega) (by omega)
          exact ⟨fuel + 1, by rw [solveLoop, hstep]; exact hfuel⟩

/-! ## Claim C3: the solver terminates on every well-formed board -/

/-- C3: on every well-formed board some fuel suffices: the solver completes
with a definite result, which moreover is stable under adding fuel (so the
fuel-free Python loop is a total function of the input), and the result is
one of exactly two terminal outcomes — a move list that really solves the
board, or the empty list after exhausting the reachable state space. -/
theorem solveSlider_terminates (size : Nat) (grid : List Nat)
    (hwf : WellFormed size grid) :
    ∃ fuel r, solveSliderFuel size grid fuel = some r ∧
      (applyMoves size grid r = some (goalBoard size) ∨ r = []) ∧
      ∀ fuel2, fuel ≤ fuel2 → solveSliderFuel size grid fuel2 = some r := by
  by_cases hg : grid = goalBoard size
  · refine ⟨0, [], ?_, Or.inr rfl, ?_⟩
    · simp [solveSliderFuel, hg]
    · intro fuel2 _
      simp [solveSliderFuel, hg]
  · obtain ⟨fuel, hfuel⟩ := solveLoop_hasFuel size grid hwf
      (unvisitedCount grid (initState size grid).best_cost)
      (costSum grid (initState size grid).best_cost +
        (initState size grid).open_set.length)
      (initState size grid) (searchInv_init size grid) (Nat.le_refl _)
      (Nat.le_refl _)
    obtain ⟨r, hr⟩ := Option.isSome_iff_exists.mp hfuel
    refine ⟨fuel, r, ?_, ?_, ?_⟩
    · rw [solveSliderFuel, if_neg hg]
      exact hr
    · exact solveLoop_sound size grid fuel (initState size grid) r
        (searchInv_init size grid) hwf hr
    · intro fuel2 hle
      rw [solveSliderFuel, if_neg hg]
      exact solveLoop_mono size fuel fuel2 (initState size grid) r hle hr

/-- C3 witness: the 2×2 board `[1, 0, 2, 3]` (a well-formed input). -/
theorem solveSlider_terminates_witness :
    ∃ fuel r, solveSliderFuel 2 [1, 0, 2, 3] fuel = some r ∧
      (applyMoves 2 [1, 0, 2, 3] r = some (goalBoard 2) ∨ r = []) ∧
      ∀ fuel2, fuel ≤ fuel2 → solveSliderFuel 2 [1, 0, 2, 3] fuel2 = some r :=
  solveSlider_terminates 2 [1, 0, 2, 3] (by constructor <;> decide)
